import Mathlib

/-!
Verification of the adaptive summarization engine (`src/engine.py`).

Python strings are modelled as `List Char`; Python dicts as association
lists with unique keys, looked up first-match.  The remote text-generation
service is modelled as an oracle: a function from the attempt number of a
given call site to that attempt's outcome (a parsed JSON object, a finish
reason and a usage triple, or an exception).  The recursion of the chunked
strategy is modelled with explicit fuel; running out of fuel plays the role
of the interpreter's recursion-limit error, which the orchestrator's
`except` would catch like any other exception.
-/

set_option linter.unusedVariables false

namespace Engine

/-- Python strings are modelled as lists of characters. -/
abbrev Str := List Char

/-- The characters stripped by Python `str.strip()` and matched by the
regex class `\s` (ASCII range). -/
def isSpace (c : Char) : Bool :=
  c = ' ' || c = '\t' || c = '\n' || c = '\r' || c = '\x0b' || c = '\x0c'

/-- Python `str.lstrip()`. -/
def lstrip (s : Str) : Str := s.dropWhile isSpace

/-- Python `str.rstrip()`. -/
def rstrip (s : Str) : Str := (s.reverse.dropWhile isSpace).reverse

/-- Python `str.strip()`: remove whitespace from both ends. -/
def strip (s : Str) : Str := rstrip (lstrip s)

/-- `PAGE_BREAK` from `engine.py`. -/
def PAGE_BREAK : Str := "\n\n----- PAGE BREAK -----\n\n".data

/-- Helper for `text.split(PAGE_BREAK)`: scan left to right, cutting at each
leftmost non-overlapping occurrence of the separator (Python `str.split`
semantics).  `acc` holds the current piece reversed.  The recursion is
structural on a fuel argument so that it evaluates in the kernel; every use
supplies `fuel ≥ l.length`, which makes the fuel-exhausted case unreachable
(both recursive calls consume at least one character). -/
def splitPBAux : ℕ → Str → Str → List Str
  | 0, _, acc => [acc.reverse]
  | _ + 1, [], acc => [acc.reverse]
  | fuel + 1, c :: rest, acc =>
    if PAGE_BREAK.isPrefixOf (c :: rest) then
      acc.reverse :: splitPBAux fuel ((c :: rest).drop PAGE_BREAK.length) []
    else
      splitPBAux fuel rest (c :: acc)

/-- `text.split(PAGE_BREAK)` from `engine.py`. -/
def splitPages (s : Str) : List Str := splitPBAux s.length s []

/-- The piece of `s` before the leftmost occurrence of `PAGE_BREAK`
(all of `s` when there is none): the first page of `s`. -/
def firstPageRaw : Str → Str
  | [] => []
  | c :: rest =>
    if PAGE_BREAK.isPrefixOf (c :: rest) then [] else c :: firstPageRaw rest

/-- The three alternatives of the regex `_REF_HEAD_RE`. -/
def REF_KEYWORDS : List Str :=
  ["references".data, "bibliography".data, "literature".data]

/-- Regex `\w` (ASCII range), used for the `\b` boundary after the keyword. -/
def isWordChar (c : Char) : Bool := c.isAlphanum || c = '_'

/-- The `\b` after the keyword: end of input or a non-word character. -/
def kwBoundary : Str → Bool
  | [] => true
  | c :: _ => !isWordChar c

/-- Does `l` start with one of the reference keywords (case-insensitively)
followed by a word boundary? -/
def matchKwAt (l : Str) : Bool :=
  REF_KEYWORDS.any fun kw =>
    ((l.take kw.length).map Char.toLower == kw) && kwBoundary (l.drop kw.length)

/-- A match of `\s*(references|bibliography|literature)\b` starting at the
position where `l` begins: skip whitespace greedily (the keyword starts with
a letter, so the greedy skip is equivalent to the regex), then match a
keyword with boundary. -/
def refHeadAt (l : Str) : Bool := matchKwAt (l.dropWhile isSpace)

/-- Suffixes of `l` that start right after a newline: the positions, other
than the start of `l`, where `^` matches in multiline mode. -/
def tailsAfterNL : Str → List Str
  | [] => []
  | c :: rest => if c = '\n' then rest :: tailsAfterNL rest else tailsAfterNL rest

/-- `_REF_HEAD_RE.search(l)` from `engine.py`: the multiline, case-insensitive
search for `^\s*(references|bibliography|literature)\b`. -/
def hasRefHead (l : Str) : Bool :=
  refHeadAt l || (tailsAfterNL l).any refHeadAt

/-- `_truncate_by_reference_heading` from `engine.py`: split on the page-break
marker, find the first page whose text matches the reference-heading regex,
and keep only the pages before it (right-stripped); return the input unchanged
when no page matches. -/
def truncate_by_reference_heading (text : Str) : Str :=
  let pages := splitPages text
  match pages.findIdx? hasRefHead with
  | some i => rstrip (List.intercalate PAGE_BREAK (pages.take i))
  | none => text

/-- One step of `re.sub(r"\n{3,}", "\n\n", text)`: `k` counts the newlines
immediately preceding the current position (the regex replaces every maximal
run of three or more newlines by exactly two, i.e. drops every newline that
already has two newlines directly before it). -/
def collapseNLAux : ℕ → Str → Str
  | _, [] => []
  | k, c :: rest =>
    if c = '\n' then
      if 2 ≤ k then collapseNLAux k rest else '\n' :: collapseNLAux (k + 1) rest
    else c :: collapseNLAux 0 rest

/-- `re.sub(r"\n{3,}", "\n\n", text)` from `clean_text`. -/
def collapse_newlines (s : Str) : Str := collapseNLAux 0 s

/-- `clean_text` from `engine.py`. -/
def clean_text (text : Str) (drop_refs_after_page : Option ℕ)
    (cut_at_references : Bool) : Str :=
  let s := strip (collapse_newlines text)
  let s := if cut_at_references then truncate_by_reference_heading s else s
  match drop_refs_after_page with
  | none => s
  | some d =>
    let pages := splitPages s
    if d < pages.length then rstrip (List.intercalate PAGE_BREAK (pages.take d))
    else s

/-- A Python value stored in a parsed-JSON dict: either a string, or any
non-string value `other r` whose `str()` representation is `r`. -/
inductive PyVal where
  | str (v : Str)
  | other (repr : Str)
deriving DecidableEq, Repr

/-- Python `str(v)` on a `PyVal`. -/
def PyVal.toStr : PyVal → Str
  | .str v => v
  | .other r => r

/-- The sentinel `"Not reported"`. -/
def NOT_REPORTED : Str := "Not reported".data

/-- Python `d.get(k)` on an association-list dict (first match; dicts have
unique keys, so first-match lookup agrees with dict lookup). -/
def dictGet {α : Type} : List (Str × α) → Str → Option α
  | [], _ => none
  | (k', v) :: rest, k => if k' = k then some v else dictGet rest k

/-- The value computed by `ensure_schema` for one key:
`v = d.get(k, "Not reported")`, coerce to a string, strip it, and substitute
the sentinel if the result is empty (`v.strip() or "Not reported"`). -/
def normVal (v? : Option PyVal) : Str :=
  if strip ((v?.getD (PyVal.str NOT_REPORTED)).toStr) = [] then NOT_REPORTED
  else strip ((v?.getD (PyVal.str NOT_REPORTED)).toStr)

/-- `ensure_schema` from `engine.py`: for each required key in order, the
normalized value of the input's entry for that key. -/
def ensure_schema (d : List (Str × PyVal)) (keys : List Str) : List (Str × Str) :=
  keys.map fun k => (k, normVal (dictGet d k))

/-- A usage triple (`prompt_tokens`, `completion_tokens`, `total_tokens`). -/
structure Usage where
  prompt_tokens : ℕ
  completion_tokens : ℕ
  total_tokens : ℕ
deriving DecidableEq, Repr

/-- The zero usage dict `{"prompt_tokens":0,"completion_tokens":0,"total_tokens":0}`. -/
def zeroUsage : Usage := ⟨0, 0, 0⟩

/-- `add_usage` from `engine.py`: componentwise sum. -/
def add_usage (a b : Usage) : Usage :=
  ⟨a.prompt_tokens + b.prompt_tokens,
   a.completion_tokens + b.completion_tokens,
   a.total_tokens + b.total_tokens⟩

/-- A Python exception as the engine observes it: `str(e)` and
`e.__class__.__name__`. -/
structure Exc where
  msg : Str
  clsName : Str
deriving DecidableEq, Repr

/-- Is `sub` a contiguous substring of `l` (Python `sub in l`)? -/
def containsSub (sub l : Str) : Bool := l.tails.any (sub.isPrefixOf ·)

/-- The size-signal phrases of `is_size_signal_error`. -/
def SIZE_PHRASES : List Str :=
  ["context length".data, "maximum context".data,
   "too many tokens".data, "input is too long".data]

/-- `is_size_signal_error` from `engine.py`. -/
def is_size_signal_error (e : Exc) : Bool :=
  let m := e.msg.map Char.toLower
  SIZE_PHRASES.any fun t => containsSub t m

/-- A successful response of `call_chat_json`: the parsed JSON object, the
finish reason, and the usage triple. -/
structure CallOk where
  json : List (Str × PyVal)
  finish : Str
  usage : Usage
deriving DecidableEq, Repr

deriving instance DecidableEq for Except

/-- The outcome of one remote call: a response, or a raised exception. -/
abbrev CallOutcome := Except Exc CallOk

/-- An oracle giving the outcome of the `n`-th attempt at one call site. -/
abbrev CallOracle := ℕ → CallOutcome

/-- `try_single_pass` from `engine.py`: exactly one call (attempt 0 of the
oracle), classifying the outcome.  Returns (result, status, usage). -/
def try_single_pass (call : CallOracle) (keys : List Str) :
    Option (List (Str × Str)) × Str × Usage :=
  match call 0 with
  | .ok r =>
    if r.finish = "length".data then (none, "finish_length".data, r.usage)
    else (some (ensure_schema r.json keys), "ok".data, r.usage)
  | .error e =>
    if is_size_signal_error e then (none, "too_big".data, zeroUsage)
    else (none, "error:".data ++ e.clsName, zeroUsage)

/-- `summarize_chunk` from `engine.py`: up to two attempts; a size-signal
error or a second failure is re-raised; usage starts at zero and the
successful attempt's usage is added to it. -/
def summarize_chunk (call : CallOracle) (keys : List Str) :
    Except Exc (List (Str × Str) × Usage) :=
  match call 0 with
  | .ok r => .ok (ensure_schema r.json keys, add_usage zeroUsage r.usage)
  | .error e =>
    if is_size_signal_error e then .error e
    else
      match call 1 with
      | .ok r => .ok (ensure_schema r.json keys, add_usage zeroUsage r.usage)
      | .error e2 => .error e2

/-- The local-merge scan of `reduce_partials`: for one key, the first
partial's stripped value that is non-empty and differs (case-insensitively)
from the sentinel; the sentinel when no partial has one. -/
def pickVal (parts : List (List (Str × Str))) (k : Str) : Str :=
  match parts with
  | [] => NOT_REPORTED
  | p :: ps =>
    let v := strip ((dictGet p k).getD [])
    if v ≠ [] ∧ v.map Char.toLower ≠ "not reported".data then v else pickVal ps k

/-- The deterministic local-merge fallback built inside `reduce_partials`. -/
def localMerge (parts : List (List (Str × Str))) (keys : List Str) :
    List (Str × Str) :=
  keys.map fun k => (k, pickVal parts k)

/-- `reduce_partials` from `engine.py`: up to two attempts; after the second
failure, fall back to the local merge with the usage accumulated so far
(zero, since only successes add usage). -/
def reduce_partials (call : CallOracle) (parts : List (List (Str × Str)))
    (keys : List Str) : List (Str × Str) × Usage :=
  match call 0 with
  | .ok r => (ensure_schema r.json keys, add_usage zeroUsage r.usage)
  | .error _ =>
    match call 1 with
    | .ok r => (ensure_schema r.json keys, add_usage zeroUsage r.usage)
    | .error _ => (localMerge parts keys, zeroUsage)

/-- `split_in_two` from `engine.py` (`max(0, ·)` is truncated ℕ subtraction). -/
def split_in_two (text : Str) (overlap : ℕ) : Str × Str :=
  let n := text.length
  let mid := n / 2
  (strip (text.take (mid + overlap / 2)), strip (text.drop (mid - overlap / 2)))

/-- Errors escaping `recursive_binary_map`: a propagated Python exception, or
fuel exhaustion (standing for the interpreter's recursion-limit error). -/
inductive RBErr where
  | exc (e : Exc)
  | fuelOut
deriving DecidableEq, Repr

/-- `recursive_binary_map` from `engine.py`.  `chunkCall text` is the oracle
of the leaf call on `text`; `reduceCall parts` the oracle of the merge call
on `parts`. -/
def recursive_binary_map (fuel : ℕ) (chunkCall : Str → CallOracle)
    (reduceCall : List (List (Str × Str)) → CallOracle)
    (overlap : ℕ) (keys : List Str) (text : Str) :
    Except RBErr (List (Str × Str) × Usage) :=
  match fuel with
  | 0 => .error .fuelOut
  | fuel + 1 =>
    match summarize_chunk (chunkCall text) keys with
    | .ok r => .ok r
    | .error e =>
      if is_size_signal_error e then
        let LR := split_in_two text overlap
        match recursive_binary_map fuel chunkCall reduceCall overlap keys LR.1 with
        | .error er => .error er
        | .ok (left, uL) =>
          match recursive_binary_map fuel chunkCall reduceCall overlap keys LR.2 with
          | .error er => .error er
          | .ok (right, uR) =>
            let mu := reduce_partials (reduceCall [left, right]) [left, right] keys
            .ok (mu.1, add_usage (add_usage uL uR) mu.2)
      else .error (.exc e)

/-- `chunked_map_reduce` from `engine.py` (delegates to the recursion). -/
def chunked_map_reduce (fuel : ℕ) (chunkCall : Str → CallOracle)
    (reduceCall : List (List (Str × Str)) → CallOracle)
    (overlap : ℕ) (keys : List Str) (text : Str) :
    Except RBErr (List (Str × Str) × Usage) :=
  recursive_binary_map fuel chunkCall reduceCall overlap keys text

/-- Python truthiness of the optional dict returned by `try_single_pass`
(`if s:`): present and non-empty. -/
def pyTruthy : Option (List (Str × Str)) → Bool
  | none => false
  | some d => d ≠ []

/-- `summarize_text` from `engine.py`.  `singleCall cleaned` is the oracle of
the single-pass call on the cleaned text. -/
def summarize_text (fuel : ℕ) (singleCall : Str → CallOracle)
    (chunkCall : Str → CallOracle)
    (reduceCall : List (List (Str × Str)) → CallOracle)
    (mode : Str) (drop_refs_after_page : Option ℕ) (cut_at_references : Bool)
    (overlap : ℕ) (keys : List Str) (text : Str) :
    Str × Option (List (Str × Str)) × Usage :=
  let cleaned := clean_text text drop_refs_after_page cut_at_references
  if mode = "never".data then
    let r := try_single_pass (singleCall cleaned) keys
    ("single".data, if pyTruthy r.1 then r.1 else none, r.2.2)
  else if mode = "always".data then
    match chunked_map_reduce fuel chunkCall reduceCall overlap keys cleaned with
    | .ok (s, u) => ("chunked".data, some s, u)
    | .error _ => ("chunked".data, none, zeroUsage)
  else
    let r := try_single_pass (singleCall cleaned) keys
    if pyTruthy r.1 then ("single".data, r.1, r.2.2)
    else
      match chunked_map_reduce fuel chunkCall reduceCall overlap keys cleaned with
      | .ok (s2, u2) => ("chunked".data, some s2, add_usage r.2.2 u2)
      | .error _ => ("chunked".data, none, r.2.2)

/-- The output of the normalizer fed back as an input map (Python string
values are strings; the embedding records them as `PyVal.str`). -/
def asPyDict (d : List (Str × Str)) : List (Str × PyVal) :=
  d.map fun kv => (kv.1, PyVal.str kv.2)

/-- The Structured Result invariant: every field of the schema is present, in
schema order, and every value is a non-empty string with no leading or
trailing whitespace. -/
def SRInv (keys : List Str) (r : List (Str × Str)) : Prop :=
  r.map Prod.fst = keys ∧ ∀ kv ∈ r, kv.2 ≠ [] ∧ strip kv.2 = kv.2

/-- Spec-side predicate for the local merge: does partial `p` hold, for field
`k`, a value that is non-empty and differs case-insensitively from the
sentinel? -/
def hasReportedVal (k : Str) (p : List (Str × Str)) : Bool :=
  !((dictGet p k).getD [] == [])
    && !(((dictGet p k).getD []).map Char.toLower == "not reported".data)

/-- A successful remote response used by concrete witnesses. -/
def okCall : CallOutcome :=
  .ok ⟨[("f".data, PyVal.str " v ".data)], "stop".data, ⟨1, 2, 3⟩⟩

/-- An exception whose message signals an input-size limit. -/
def sizeExc : Exc :=
  ⟨"This model's maximum context length is 8192 tokens".data,
   "BadRequestError".data⟩

/-- An exception unrelated to input size. -/
def otherExc : Exc := ⟨"boom".data, "APIError".data⟩

/-- Witness leaf-call oracle: texts of length at least 3 fail with a
size-signal error, shorter texts succeed. -/
def wChunkCall : Str → CallOracle := fun t _ =>
  if 3 ≤ t.length then Except.error sizeExc else okCall

/-- Witness merge-call oracle: always succeeds. -/
def wReduceCall : List (List (Str × Str)) → CallOracle := fun _ _ =>
  Except.ok ⟨[("f".data, PyVal.str "m".data)], "stop".data, ⟨5, 5, 10⟩⟩

/-- Witness single-pass oracle that always succeeds. -/
def wSingleOk : Str → CallOracle := fun _ _ => okCall

/-- Witness single-pass oracle that always fails with a size-signal error. -/
def wSingleFail : Str → CallOracle := fun _ _ => Except.error sizeExc

/-! #### Declarative predicates used for the reference-truncation claim -/

/-- Every character is whitespace. -/
def SpaceOnly (l : Str) : Prop := ∀ c ∈ l, isSpace c = true

/-- `pre` ends at a line start: it is empty (start of the text) or ends with
a newline. -/
def LineStart (pre : Str) : Prop := pre = [] ∨ ∃ pre', pre = pre' ++ ['\n']

/-- `kw` spells one of the reference keywords, case-insensitively. -/
def KwMatch (kw : Str) : Prop := ∃ k ∈ REF_KEYWORDS, kw.map Char.toLower = k

/-- A word boundary follows: end of text or a non-word character. -/
def Bdry (rest : Str) : Prop :=
  rest = [] ∨ ∃ c rest', rest = c :: rest' ∧ isWordChar c = false

/-- `l` begins with optional whitespace, then a reference keyword, then a
word boundary: a match of the heading regex anchored at the start of `l`. -/
def HeadingFrom (l : Str) : Prop :=
  ∃ ws kw rest, l = ws ++ kw ++ rest ∧ SpaceOnly ws ∧ KwMatch kw ∧ Bdry rest

/-- The heading regex matches somewhere in `s` (at a line start). -/
def HeadingIn (s : Str) : Prop :=
  ∃ pre post, s = pre ++ post ∧ LineStart pre ∧ HeadingFrom post

/-- The page-break marker occurs somewhere in `t`. -/
def MOcc (t : Str) : Prop := ∃ x y, t = x ++ PAGE_BREAK ++ y

/-- A heading match occurs in the first page of `t`: the text decomposes as
`pre ++ ws ++ kw ++ rest` with a heading match starting at the line start
after `pre`, and no page-break marker occurs inside `pre ++ ws` (every
marker occurrence in `t`, if any, starts after the keyword). -/
def HFP (t : Str) : Prop :=
  ∃ pre ws kw rest, t = pre ++ ws ++ kw ++ rest ∧ LineStart pre
    ∧ SpaceOnly ws ∧ KwMatch kw ∧ Bdry rest ∧ ¬ MOcc (pre ++ ws)

/-- The newline count tracked by `collapseNLAux` after processing `u`
starting from state `k`. -/
def stateAfter (k : ℕ) (u : Str) : ℕ :=
  u.foldl (fun s c => if c = '\n' then (if 2 ≤ s then s else s + 1) else 0) k

/-- The newline-free body of the page-break marker. -/
def PBody : Str := "----- PAGE BREAK -----".data

/-! ### Basic facts about stripping -/

theorem length_lstrip_le (s : Str) : (lstrip s).length ≤ s.length :=
  (List.dropWhile_sublist isSpace (l := s)).length_le

theorem length_rstrip_le (s : Str) : (rstrip s).length ≤ s.length := by
  have h := (List.dropWhile_sublist isSpace (l := s.reverse)).length_le
  simpa [rstrip] using h

theorem length_strip_le (s : Str) : (strip s).length ≤ s.length :=
  le_trans (length_rstrip_le _) (length_lstrip_le _)

/-! ### Claim C2: split coverage with overlap -/

/-- C2.  For a text of length `N` and overlap `O < N`, `split_in_two` returns
the whitespace-trimmed slices `text[:N/2 + O/2]` and `text[N/2 - O/2:]`; the
two slices' index ranges `[0, N/2 + O/2)` and `[N/2 - O/2, N)` jointly cover
every position in `[0, N)`, and the region they share has length `O` for even
`O` and `O - 1` for odd `O`, i.e. `O` within `±1` for integer division. -/
theorem claim2_split_coverage (text : Str) (overlap : ℕ)
    (h : overlap < text.length) :
    split_in_two text overlap =
      (strip (text.take (text.length / 2 + overlap / 2)),
       strip (text.drop (text.length / 2 - overlap / 2)))
    ∧ (∀ i, i < text.length →
        i < text.length / 2 + overlap / 2 ∨ text.length / 2 - overlap / 2 ≤ i)
    ∧ text.length / 2 - overlap / 2 ≤ text.length / 2 + overlap / 2
    ∧ text.length / 2 + overlap / 2 ≤ text.length
    ∧ ((text.length / 2 + overlap / 2) - (text.length / 2 - overlap / 2) = overlap
       ∨ (text.length / 2 + overlap / 2) - (text.length / 2 - overlap / 2) + 1
          = overlap) := by
  refine ⟨rfl, fun i hi => by omega, by omega, by omega, by omega⟩

/-- Witness for C2 at `text = "abcde"`, `overlap = 2`. -/
theorem claim2_split_coverage_witness :
    split_in_two "abcde".data 2 =
      (strip ("abcde".data.take ("abcde".data.length / 2 + 2 / 2)),
       strip ("abcde".data.drop ("abcde".data.length / 2 - 2 / 2)))
    ∧ (∀ i, i < "abcde".data.length →
        i < "abcde".data.length / 2 + 2 / 2 ∨ "abcde".data.length / 2 - 2 / 2 ≤ i)
    ∧ "abcde".data.length / 2 - 2 / 2 ≤ "abcde".data.length / 2 + 2 / 2
    ∧ "abcde".data.length / 2 + 2 / 2 ≤ "abcde".data.length
    ∧ (("abcde".data.length / 2 + 2 / 2) - ("abcde".data.length / 2 - 2 / 2) = 2
       ∨ ("abcde".data.length / 2 + 2 / 2) - ("abcde".data.length / 2 - 2 / 2) + 1
          = 2) :=
  claim2_split_coverage "abcde".data 2 (by decide)

/-! ### Claim C3: strict shrinking of the halves (corrected) -/

/-- Counterexample to C3 as stated: the text `"abc"` has length `3 > 2`, the
configured overlap, yet the right half returned by `split_in_two` is the
whole parent text, not strictly shorter. -/
theorem claim3_counterexample :
    2 < "abc".data.length
    ∧ (split_in_two "abc".data 2).2 = "abc".data
    ∧ ¬ (split_in_two "abc".data 2).2.length < "abc".data.length := by
  decide

/-- C3 (amended).  Whenever the parent text is strictly longer than
`overlap + 1` (rather than `overlap`), each of the two halves produced by
`split_in_two` is strictly shorter than the parent text. -/
theorem claim3_halves_shrink (text : Str) (overlap : ℕ)
    (h : overlap + 1 < text.length) :
    (split_in_two text overlap).1.length < text.length
    ∧ (split_in_two text overlap).2.length < text.length := by
  constructor
  · have h1 := length_strip_le (text.take (text.length / 2 + overlap / 2))
    have h2 : (text.take (text.length / 2 + overlap / 2)).length
        = min (text.length / 2 + overlap / 2) text.length := by
      simp [List.length_take]
    simp only [split_in_two]
    omega
  · have h1 := length_strip_le (text.drop (text.length / 2 - overlap / 2))
    have h2 : (text.drop (text.length / 2 - overlap / 2)).length
        = text.length - (text.length / 2 - overlap / 2) := by
      simp [List.length_drop]
    simp only [split_in_two]
    omega

/-- Witness for the amended C3 at `text = "abcd"`, `overlap = 1`. -/
theorem claim3_halves_shrink_witness :
    (split_in_two "abcd".data 1).1.length < "abcd".data.length
    ∧ (split_in_two "abcd".data 1).2.length < "abcd".data.length :=
  claim3_halves_shrink "abcd".data 1 (by decide)

/-! ### Stripping is idempotent -/

theorem rstrip_append_takeWhile (l : Str) :
    rstrip l ++ (l.reverse.takeWhile isSpace).reverse = l := by
  rw [rstrip, ← List.reverse_append, List.takeWhile_append_dropWhile,
    List.reverse_reverse]

theorem lstrip_head_not_space :
    ∀ (s : Str) (c : Char), (lstrip s).head? = some c → isSpace c = false := by
  intro s
  induction s with
  | nil => intro c hc; simp [lstrip] at hc
  | cons a t ih =>
    intro c hc
    by_cases ha : isSpace a
    · rw [lstrip, List.dropWhile_cons, if_pos ha] at hc
      exact ih c hc
    · rw [lstrip, List.dropWhile_cons, if_neg ha] at hc
      simp at hc
      subst hc
      simpa using ha

theorem lstrip_eq_self_of_head (l : Str)
    (h : ∀ c, l.head? = some c → isSpace c = false) : lstrip l = l := by
  cases l with
  | nil => rfl
  | cons a t =>
    rw [lstrip, List.dropWhile_cons, if_neg]
    simp [h a rfl]

theorem lstrip_idem (s : Str) : lstrip (lstrip s) = lstrip s :=
  List.dropWhile_idempotent isSpace s

theorem rstrip_idem (s : Str) : rstrip (rstrip s) = rstrip s := by
  simp [rstrip, List.reverse_reverse, List.dropWhile_idempotent]

theorem lstrip_rstrip_lstrip (s : Str) :
    lstrip (rstrip (lstrip s)) = rstrip (lstrip s) := by
  apply lstrip_eq_self_of_head
  intro c hc
  have ht := rstrip_append_takeWhile (lstrip s)
  cases hr : rstrip (lstrip s) with
  | nil => rw [hr] at hc; simp at hc
  | cons c0 r0 =>
    rw [hr] at hc
    simp at hc
    have hhead : (lstrip s).head? = some c0 := by
      rw [← ht, hr]
      simp
    rw [← hc]
    exact lstrip_head_not_space s c0 hhead

theorem strip_idem (s : Str) : strip (strip s) = strip s := by
  rw [strip, strip, lstrip_rstrip_lstrip, rstrip_idem]

theorem strip_not_reported : strip NOT_REPORTED = NOT_REPORTED := by decide

theorem not_reported_ne_nil : NOT_REPORTED ≠ [] := by decide

/-! ### Lookup lemmas for the association-list model -/

theorem dictGet_map_self {β : Type} (keys : List Str) (f : Str → β)
    (k : Str) (hk : k ∈ keys) :
    dictGet (keys.map fun k' => (k', f k')) k = some (f k) := by
  induction keys with
  | nil => cases hk
  | cons a rest ih =>
    simp only [List.map_cons, dictGet]
    by_cases ha : a = k
    · subst ha; simp
    · rw [if_neg ha]
      rcases List.mem_cons.mp hk with h | h
      · exact absurd h.symm ha
      · exact ih h

theorem dictGet_map_val {β γ : Type} (d : List (Str × β)) (h : β → γ)
    (k : Str) :
    dictGet (d.map fun kv => (kv.1, h kv.2)) k = (dictGet d k).map h := by
  induction d with
  | nil => rfl
  | cons kv rest ih =>
    simp only [List.map_cons, dictGet]
    by_cases hk : kv.1 = k
    · simp [hk]
    · simp [hk, ih]

theorem map_fst_pair {β : Type} (keys : List Str) (f : Str → β) :
    ((keys.map fun k => (k, f k)).map Prod.fst) = keys := by
  induction keys with
  | nil => rfl
  | cons a rest ih => simp [ih]

theorem ensure_schema_lookup (d : List (Str × PyVal)) (keys : List Str)
    (k : Str) (hk : k ∈ keys) :
    dictGet (ensure_schema d keys) k = some (normVal (dictGet d k)) := by
  rw [ensure_schema]
  exact dictGet_map_self keys (fun k' => normVal (dictGet d k')) k hk

/-! ### Claim C7: schema completeness of the normalizer -/

/-- C7.  For every required field list `F` and input map, the normalizer's
output carries exactly the keys of `F`, in the order of `F`; a field absent
from the input, or whose stripped string value is empty, is mapped to the
sentinel `"Not reported"`; otherwise it is mapped to the stripped string
form of the input's value.  Extra input keys are dropped (the output key
list is exactly `F`). -/
theorem claim7_schema_completeness (d : List (Str × PyVal)) (keys : List Str) :
    (ensure_schema d keys).map Prod.fst = keys
    ∧ (∀ k, k ∈ keys → dictGet d k = none →
        dictGet (ensure_schema d keys) k = some NOT_REPORTED)
    ∧ (∀ k v, k ∈ keys → dictGet d k = some v → strip v.toStr = [] →
        dictGet (ensure_schema d keys) k = some NOT_REPORTED)
    ∧ (∀ k v, k ∈ keys → dictGet d k = some v → strip v.toStr ≠ [] →
        dictGet (ensure_schema d keys) k = some (strip v.toStr)) := by
  refine ⟨?_, ?_, ?_, ?_⟩
  · rw [ensure_schema]
    exact map_fst_pair keys _
  · intro k hk hnone
    rw [ensure_schema_lookup d keys k hk, hnone]
    simp [normVal, PyVal.toStr, strip_not_reported, not_reported_ne_nil]
  · intro k v hk hv hempty
    rw [ensure_schema_lookup d keys k hk, hv]
    simp [normVal, hempty]
  · intro k v hk hv hne
    rw [ensure_schema_lookup d keys k hk, hv]
    simp [normVal, hne]

/-- Witness for C7 at a concrete input map and field list. -/
theorem claim7_schema_completeness_witness :
    (ensure_schema [("x".data, PyVal.str "  ".data)] ["a".data, "x".data]).map
        Prod.fst = ["a".data, "x".data]
    ∧ dictGet (ensure_schema [("x".data, PyVal.str "  ".data)]
        ["a".data, "x".data]) "a".data = some NOT_REPORTED
    ∧ dictGet (ensure_schema [("x".data, PyVal.str "  ".data)]
        ["a".data, "x".data]) "x".data = some NOT_REPORTED := by
  obtain ⟨h1, h2, h3, _⟩ :=
    claim7_schema_completeness [("x".data, PyVal.str "  ".data)]
      ["a".data, "x".data]
  exact ⟨h1, h2 "a".data (by decide) (by decide),
    h3 "x".data (PyVal.str "  ".data) (by decide) (by decide) (by decide)⟩

/-! ### Claim C9: normalization is idempotent -/

theorem normVal_str (x : Str) :
    normVal (some (PyVal.str x)) = if strip x = [] then NOT_REPORTED else strip x :=
  rfl

theorem normVal_cases (v? : Option PyVal) :
    normVal v? = NOT_REPORTED
    ∨ (normVal v? = strip ((v?.getD (PyVal.str NOT_REPORTED)).toStr)
       ∧ normVal v? ≠ []) := by
  unfold normVal
  split
  · exact Or.inl rfl
  · next h => exact Or.inr ⟨rfl, h⟩

theorem normVal_normVal (v? : Option PyVal) :
    normVal (some (PyVal.str (normVal v?))) = normVal v? := by
  rcases normVal_cases v? with h | ⟨h, hne⟩
  · rw [normVal_str, h]
    simp [strip_not_reported, not_reported_ne_nil]
  · rw [normVal_str, h, strip_idem, if_neg]
    rw [h] at hne
    exact hne

/-- C9.  Applying the normalizer to its own output yields an identical
result: `ensure_schema (ensure_schema d F) F = ensure_schema d F`. -/
theorem claim9_normalization_idempotent (d : List (Str × PyVal))
    (keys : List Str) :
    ensure_schema (asPyDict (ensure_schema d keys)) keys
      = ensure_schema d keys := by
  have hlook : ∀ k, k ∈ keys →
      dictGet (asPyDict (ensure_schema d keys)) k
        = some (PyVal.str (normVal (dictGet d k))) := by
    intro k hk
    rw [asPyDict, dictGet_map_val, ensure_schema_lookup d keys k hk]
    rfl
  show (keys.map fun k => (k, normVal (dictGet (asPyDict (ensure_schema d keys)) k)))
      = keys.map fun k => (k, normVal (dictGet d k))
  apply List.map_congr_left
  intro k hk
  rw [hlook k hk, normVal_normVal]

/-! ### Claim C8: the Structured Result invariant -/

theorem normVal_ne_nil (v? : Option PyVal) : normVal v? ≠ [] := by
  rcases normVal_cases v? with h | ⟨_, hne⟩
  · rw [h]; exact not_reported_ne_nil
  · exact hne

theorem strip_normVal (v? : Option PyVal) : strip (normVal v?) = normVal v? := by
  rcases normVal_cases v? with h | ⟨h, _⟩
  · rw [h, strip_not_reported]
  · rw [h, strip_idem]

theorem ensure_schema_SRInv (d : List (Str × PyVal)) (keys : List Str) :
    SRInv keys (ensure_schema d keys) := by
  constructor
  · rw [ensure_schema]; exact map_fst_pair keys _
  · intro kv hkv
    rw [ensure_schema] at hkv
    obtain ⟨k, _, rfl⟩ := List.mem_map.mp hkv
    exact ⟨normVal_ne_nil _, strip_normVal _⟩

theorem pickVal_ne_nil_strip (parts : List (List (Str × Str))) (k : Str) :
    pickVal parts k ≠ [] ∧ strip (pickVal parts k) = pickVal parts k := by
  induction parts with
  | nil => exact ⟨not_reported_ne_nil, strip_not_reported⟩
  | cons p ps ih =>
    rw [pickVal]
    split
    · next h => exact ⟨h.1, strip_idem _⟩
    · exact ih

theorem localMerge_SRInv (parts : List (List (Str × Str))) (keys : List Str) :
    SRInv keys (localMerge parts keys) := by
  constructor
  · rw [localMerge]; exact map_fst_pair keys _
  · intro kv hkv
    rw [localMerge] at hkv
    obtain ⟨k, _, rfl⟩ := List.mem_map.mp hkv
    exact pickVal_ne_nil_strip parts k

/-- C8.  Every Structured Result an engine operation returns satisfies the
invariant: the normalizer's output, the local-merge fallback's output (which
is built without calling the normalizer), the result of a successful
single-pass call, the result of a successful leaf (`summarize_chunk`) call,
and the result of the Reduce step in all of its outcomes (remote merge on
either attempt, or local fallback). -/
theorem claim8_structured_result_invariant :
    (∀ d keys, SRInv keys (ensure_schema d keys))
    ∧ (∀ parts keys, SRInv keys (localMerge parts keys))
    ∧ (∀ call keys d st u, try_single_pass call keys = (some d, st, u) →
        SRInv keys d)
    ∧ (∀ call keys r u, summarize_chunk call keys = Except.ok (r, u) →
        SRInv keys r)
    ∧ (∀ call parts keys, SRInv keys (reduce_partials call parts keys).1) := by
  refine ⟨ensure_schema_SRInv, localMerge_SRInv, ?_, ?_, ?_⟩
  · intro call keys d st u h
    rw [try_single_pass] at h
    split at h
    · split at h
      · simp at h
      · simp at h
        rw [← h.1]
        exact ensure_schema_SRInv _ _
    · split at h <;> simp at h
  · intro call keys r u h
    rw [summarize_chunk] at h
    split at h
    · simp at h
      rw [← h.1]
      exact ensure_schema_SRInv _ _
    · split at h
      · simp at h
      · split at h
        · simp at h
          rw [← h.1]
          exact ensure_schema_SRInv _ _
        · simp at h
  · intro call parts keys
    rw [reduce_partials]
    split
    · exact ensure_schema_SRInv _ _
    · split
      · exact ensure_schema_SRInv _ _
      · exact localMerge_SRInv _ _

/-- Witness for C8: the invariant instances obtained from the theorem at
concrete inputs, including a successful single-pass call and a Reduce call
that fails both attempts. -/
theorem claim8_structured_result_invariant_witness :
    SRInv ["f".data] (ensure_schema [] ["f".data])
    ∧ SRInv ["f".data] (localMerge [] ["f".data])
    ∧ SRInv ["f".data] [("f".data, "v".data)]
    ∧ SRInv ["f".data]
        (reduce_partials (fun _ => Except.error otherExc) [] ["f".data]).1 := by
  obtain ⟨h1, h2, h3, _, h5⟩ := claim8_structured_result_invariant
  exact ⟨h1 [] _, h2 [] _,
    h3 (fun _ => okCall) ["f".data] [("f".data, "v".data)] "ok".data ⟨1, 2, 3⟩
      (by decide),
    h5 _ [] _⟩

/-! ### Claim C4: the Reduce step's bounded retries and local fallback -/

theorem dictGet_mem {β : Type} (p : List (Str × β)) (k : Str) (v : β)
    (h : dictGet p k = some v) : (k, v) ∈ p := by
  induction p with
  | nil => cases h
  | cons kv rest ih =>
    rw [dictGet] at h
    split at h
    · next heq =>
      cases h
      rw [← heq]
      exact List.mem_cons_self _ _
    · exact List.mem_cons_of_mem _ (ih h)

theorem pickVal_find (parts : List (List (Str × Str))) (k : Str)
    (htrim : ∀ p ∈ parts, ∀ kv ∈ p, strip kv.2 = kv.2) :
    pickVal parts k =
      match parts.find? (hasReportedVal k) with
      | some p => (dictGet p k).getD []
      | none => NOT_REPORTED := by
  induction parts with
  | nil => rfl
  | cons p ps ih =>
    have hstrip : strip ((dictGet p k).getD []) = (dictGet p k).getD [] := by
      cases hv : dictGet p k with
      | none => rfl
      | some v =>
        exact htrim p (List.mem_cons_self _ _) (k, v) (dictGet_mem p k v hv)
    rw [pickVal]
    cases hgood : hasReportedVal k p with
    | true =>
      rw [List.find?_cons_of_pos _ hgood, hstrip, if_pos]
      have hc := hgood
      simp [hasReportedVal] at hc
      exact hc
    | false =>
      rw [List.find?_cons_of_neg _ (by simp [hgood]), hstrip, if_neg]
      · exact ih fun q hq => htrim q (List.mem_cons_of_mem _ hq)
      · have hc := hgood
        simp [hasReportedVal] at hc
        tauto

/-- C4.  The Reduce step makes at most two remote attempts: its outcome
depends only on attempts 0 and 1 of the call oracle.  It always returns a
Structured Result; when both attempts fail it returns the deterministic local
merge with the usage accumulated from the failed attempts (zero).  For each
required field the local merge takes the value of the first partial, in list
order, whose value for that field is non-empty and not the `"Not reported"`
sentinel (case-insensitively), and uses the sentinel when no partial has
such a value (`htrim` records that the partials are Structured Results,
whose values carry no surrounding whitespace). -/
theorem claim4_reduce_fallback (call call' : CallOracle)
    (parts : List (List (Str × Str))) (keys : List Str)
    (htrim : ∀ p ∈ parts, ∀ kv ∈ p, strip kv.2 = kv.2) :
    (call 0 = call' 0 → call 1 = call' 1 →
      reduce_partials call parts keys = reduce_partials call' parts keys)
    ∧ (∀ e0 e1, call 0 = Except.error e0 → call 1 = Except.error e1 →
      reduce_partials call parts keys = (localMerge parts keys, zeroUsage))
    ∧ localMerge parts keys = keys.map fun k =>
        (k, match parts.find? (hasReportedVal k) with
            | some p => (dictGet p k).getD []
            | none => NOT_REPORTED) := by
  refine ⟨?_, ?_, ?_⟩
  · intro h0 h1
    rw [reduce_partials, reduce_partials, h0, h1]
  · intro e0 e1 h0 h1
    rw [reduce_partials, h0, h1]
  · rw [localMerge]
    exact List.map_congr_left fun k _ => by rw [pickVal_find parts k htrim]

/-- Witness for C4 at concrete failing oracles and concrete partials. -/
theorem claim4_reduce_fallback_witness :
    reduce_partials (fun _ => Except.error otherExc)
        [[("a".data, NOT_REPORTED)], [("a".data, "y".data)]]
        ["a".data, "b".data]
      = (localMerge [[("a".data, NOT_REPORTED)], [("a".data, "y".data)]]
          ["a".data, "b".data], zeroUsage)
    ∧ localMerge [[("a".data, NOT_REPORTED)], [("a".data, "y".data)]]
        ["a".data, "b".data]
      = [("a".data, "y".data), ("b".data, NOT_REPORTED)] := by
  obtain ⟨h1, h2, h3⟩ :=
    claim4_reduce_fallback (fun _ => Except.error otherExc)
      (fun n => if n ≤ 1 then Except.error otherExc else okCall)
      [[("a".data, NOT_REPORTED)], [("a".data, "y".data)]]
      ["a".data, "b".data] (by decide)
  refine ⟨h2 otherExc otherExc rfl rfl, ?_⟩
  rw [h3]
  decide

/-! ### Claim C6: single-pass outcome classification -/

theorem isPrefixOf_iff :
    ∀ (sub t : Str), sub.isPrefixOf t = true ↔ ∃ y, sub ++ y = t := by
  intro sub
  induction sub with
  | nil => intro t; simp [List.isPrefixOf]
  | cons a s ih =>
    intro t
    cases t with
    | nil => simp [List.isPrefixOf]
    | cons b t' =>
      simp only [List.isPrefixOf, Bool.and_eq_true, beq_iff_eq]
      constructor
      · rintro ⟨rfl, hp⟩
        obtain ⟨y, hy⟩ := (ih t').mp hp
        exact ⟨y, by rw [List.cons_append, hy]⟩
      · rintro ⟨y, hy⟩
        rw [List.cons_append] at hy
        cases hy
        exact ⟨rfl, (ih (s ++ y)).mpr ⟨y, rfl⟩⟩

theorem containsSub_iff (sub l : Str) :
    containsSub sub l = true ↔ ∃ x y, l = x ++ sub ++ y := by
  rw [containsSub, List.any_eq_true]
  constructor
  · rintro ⟨t, ht, hp⟩
    obtain ⟨y, hy⟩ := (isPrefixOf_iff sub t).mp hp
    obtain ⟨x, hx⟩ := (List.mem_tails _ _).mp ht
    exact ⟨x, y, by rw [← hx, ← hy, List.append_assoc]⟩
  · rintro ⟨x, y, rfl⟩
    refine ⟨sub ++ y, (List.mem_tails _ _).mpr ⟨x, by rw [List.append_assoc]⟩,
      (isPrefixOf_iff _ _).mpr ⟨y, rfl⟩⟩

theorem is_size_signal_error_iff (e : Exc) :
    is_size_signal_error e = true
      ↔ ∃ ph ∈ SIZE_PHRASES, ∃ x y, e.msg.map Char.toLower = x ++ ph ++ y := by
  rw [is_size_signal_error, List.any_eq_true]
  constructor
  · rintro ⟨ph, hph, hc⟩
    exact ⟨ph, hph, (containsSub_iff _ _).mp hc⟩
  · rintro ⟨ph, hph, hc⟩
    exact ⟨ph, hph, (containsSub_iff _ _).mpr hc⟩

/-- C6.  The single-pass strategy issues exactly one remote call (its outcome
depends only on attempt 0 of the oracle, so there is no retry) and classifies
the outcome: an error whose lowercased message contains one of the four
size-limit phrases yields status `"too_big"` (the spec's `too_large`) with no
result and zero usage; any other error yields status `"error:"` followed by
the error's class name (the spec's `fatal_error` tagged with the category)
with no result and zero usage; a response truncated by the service's length
limit yields status `"finish_length"` (the spec's `truncated_by_length_limit`)
with no result. -/
theorem claim6_single_pass_classification (call call' : CallOracle)
    (keys : List Str) :
    (call 0 = call' 0 →
      try_single_pass call keys = try_single_pass call' keys)
    ∧ (∀ e, call 0 = Except.error e →
      (∃ ph ∈ SIZE_PHRASES, ∃ x y, e.msg.map Char.toLower = x ++ ph ++ y) →
      try_single_pass call keys = (none, "too_big".data, zeroUsage))
    ∧ (∀ e, call 0 = Except.error e →
      (¬ ∃ ph ∈ SIZE_PHRASES, ∃ x y, e.msg.map Char.toLower = x ++ ph ++ y) →
      try_single_pass call keys = (none, "error:".data ++ e.clsName, zeroUsage))
    ∧ (∀ r, call 0 = Except.ok r → r.finish = "length".data →
      try_single_pass call keys = (none, "finish_length".data, r.usage)) := by
  refine ⟨?_, ?_, ?_, ?_⟩
  · intro h0
    rw [try_single_pass, try_single_pass, h0]
  · intro e he hph
    simp only [try_single_pass, he]
    rw [if_pos ((is_size_signal_error_iff e).mpr hph)]
  · intro e he hph
    simp only [try_single_pass, he]
    rw [if_neg]
    intro hc
    exact hph ((is_size_signal_error_iff e).mp hc)
  · intro r hr hfin
    simp only [try_single_pass, hr]
    rw [if_pos hfin]

/-- Witness for C6: the three classifications at concrete outcomes. -/
theorem claim6_single_pass_classification_witness :
    try_single_pass (fun _ => Except.error sizeExc) ["f".data]
      = (none, "too_big".data, zeroUsage)
    ∧ try_single_pass (fun _ => Except.error otherExc) ["f".data]
      = (none, "error:".data ++ otherExc.clsName, zeroUsage)
    ∧ try_single_pass (fun _ => Except.ok ⟨[], "length".data, ⟨4, 5, 9⟩⟩)
        ["f".data]
      = (none, "finish_length".data, ⟨4, 5, 9⟩) := by
  refine ⟨?_, ?_, ?_⟩
  · exact (claim6_single_pass_classification (fun _ => Except.error sizeExc)
      (fun _ => Except.error sizeExc) ["f".data]).2.1 sizeExc rfl
      ⟨"maximum context".data, by decide,
       "this model's ".data, " length is 8192 tokens".data, by decide⟩
  · exact (claim6_single_pass_classification (fun _ => Except.error otherExc)
      (fun _ => Except.error otherExc) ["f".data]).2.2.1 otherExc rfl
      (by rw [← is_size_signal_error_iff]; decide)
  · exact (claim6_single_pass_classification
      (fun _ => Except.ok ⟨[], "length".data, ⟨4, 5, 9⟩⟩)
      (fun _ => Except.ok ⟨[], "length".data, ⟨4, 5, 9⟩⟩) ["f".data]).2.2.2
      ⟨[], "length".data, ⟨4, 5, 9⟩⟩ rfl rfl

/-! ### Claim C1: usage additivity of the recursive strategy -/

/-- C1.  At every level of the chunked recursive strategy where the leaf call
fails with a size-related error and the two recursive halves return, the
usage triple returned at that level is `add_usage (add_usage uL uR) uM` —
the componentwise sum, in each of the three counters, of the left subtree's
usage, the right subtree's usage, and the merge call's usage, with nothing
dropped or double-counted. -/
theorem claim1_usage_additivity (fuel : ℕ) (chunkCall : Str → CallOracle)
    (reduceCall : List (List (Str × Str)) → CallOracle)
    (overlap : ℕ) (keys : List Str) (text : Str) (e : Exc)
    (l r : List (Str × Str)) (uL uR : Usage)
    (hleaf : summarize_chunk (chunkCall text) keys = Except.error e)
    (hsize : is_size_signal_error e = true)
    (hL : recursive_binary_map fuel chunkCall reduceCall overlap keys
        (split_in_two text overlap).1 = Except.ok (l, uL))
    (hR : recursive_binary_map fuel chunkCall reduceCall overlap keys
        (split_in_two text overlap).2 = Except.ok (r, uR)) :
    recursive_binary_map (fuel + 1) chunkCall reduceCall overlap keys text
      = Except.ok ((reduce_partials (reduceCall [l, r]) [l, r] keys).1,
          add_usage (add_usage uL uR)
            (reduce_partials (reduceCall [l, r]) [l, r] keys).2)
    ∧ ∀ uM : Usage,
        (add_usage (add_usage uL uR) uM).prompt_tokens
            = uL.prompt_tokens + uR.prompt_tokens + uM.prompt_tokens
        ∧ (add_usage (add_usage uL uR) uM).completion_tokens
            = uL.completion_tokens + uR.completion_tokens + uM.completion_tokens
        ∧ (add_usage (add_usage uL uR) uM).total_tokens
            = uL.total_tokens + uR.total_tokens + uM.total_tokens := by
  constructor
  · simp only [recursive_binary_map, hleaf, hsize, if_true, hL, hR]
  · intro uM
    exact ⟨rfl, rfl, rfl⟩

/-- Witness for C1: concrete oracles where the leaf call on `"abcd"` fails
with a size error and both halves succeed. -/
theorem claim1_usage_additivity_witness :
    recursive_binary_map 2 wChunkCall wReduceCall 0 ["f".data] "abcd".data
      = Except.ok ((reduce_partials
            (wReduceCall [[("f".data, "v".data)], [("f".data, "v".data)]])
            [[("f".data, "v".data)], [("f".data, "v".data)]] ["f".data]).1,
          add_usage (add_usage ⟨1, 2, 3⟩ ⟨1, 2, 3⟩)
            (reduce_partials
              (wReduceCall [[("f".data, "v".data)], [("f".data, "v".data)]])
              [[("f".data, "v".data)], [("f".data, "v".data)]] ["f".data]).2) :=
  (claim1_usage_additivity 1 wChunkCall wReduceCall 0 ["f".data] "abcd".data
    sizeExc [("f".data, "v".data)] [("f".data, "v".data)] ⟨1, 2, 3⟩ ⟨1, 2, 3⟩
    (by decide) (by decide) (by decide) (by decide)).1

/-! ### Claim C5: the orchestrator's auto mode -/

theorem try_single_pass_some_length (call : CallOracle) (keys : List Str)
    (d : List (Str × Str)) (st : Str) (u : Usage)
    (h : try_single_pass call keys = (some d, st, u)) :
    d.length = keys.length := by
  rw [try_single_pass] at h
  split at h
  · split at h
    · simp at h
    · simp at h
      rw [← h.1, ensure_schema, List.length_map]
  · split at h <;> simp at h

/-- C5.  In auto mode the orchestrator runs the single-pass strategy first on
the cleaned text; when it returns a result (`ok`), the orchestrator returns
that result with strategy `"single"` and the single-pass usage only.  When it
returns no result — for any reason — the orchestrator runs the chunked
strategy on the same cleaned text: if that returns, the orchestrator returns
its result with strategy `"chunked"` and usage `add_usage u1 u2` (the
componentwise sum of both attempts); if it raises, the orchestrator returns
no result with the usage accumulated from the single-pass attempt.  The
hypothesis `keys ≠ []` records that the configured schema is non-empty, so
an `ok` single-pass result is a non-empty dict (Python-truthy). -/
theorem claim5_auto_mode (fuel : ℕ) (singleCall chunkCall : Str → CallOracle)
    (reduceCall : List (List (Str × Str)) → CallOracle)
    (drop_refs_after_page : Option ℕ) (cut_at_references : Bool)
    (overlap : ℕ) (keys : List Str) (text : Str) (hk : keys ≠ []) :
    (∀ d st u,
      try_single_pass
          (singleCall (clean_text text drop_refs_after_page cut_at_references))
          keys = (some d, st, u) →
      summarize_text fuel singleCall chunkCall reduceCall "auto".data
          drop_refs_after_page cut_at_references overlap keys text
        = ("single".data, some d, u))
    ∧ (∀ st u r2 u2,
      try_single_pass
          (singleCall (clean_text text drop_refs_after_page cut_at_references))
          keys = (none, st, u) →
      chunked_map_reduce fuel chunkCall reduceCall overlap keys
          (clean_text text drop_refs_after_page cut_at_references)
        = Except.ok (r2, u2) →
      summarize_text fuel singleCall chunkCall reduceCall "auto".data
          drop_refs_after_page cut_at_references overlap keys text
        = ("chunked".data, some r2, add_usage u u2)
      ∧ (add_usage u u2).prompt_tokens = u.prompt_tokens + u2.prompt_tokens
      ∧ (add_usage u u2).completion_tokens
          = u.completion_tokens + u2.completion_tokens
      ∧ (add_usage u u2).total_tokens = u.total_tokens + u2.total_tokens)
    ∧ (∀ st u er,
      try_single_pass
          (singleCall (clean_text text drop_refs_after_page cut_at_references))
          keys = (none, st, u) →
      chunked_map_reduce fuel chunkCall reduceCall overlap keys
          (clean_text text drop_refs_after_page cut_at_references)
        = Except.error er →
      summarize_text fuel singleCall chunkCall reduceCall "auto".data
          drop_refs_after_page cut_at_references overlap keys text
        = ("chunked".data, none, u)) := by
  have hmode1 : ("auto".data : Str) ≠ "never".data := by decide
  have hmode2 : ("auto".data : Str) ≠ "always".data := by decide
  refine ⟨?_, ?_, ?_⟩
  · intro d st u h
    have hd : d ≠ [] := by
      have hlen := try_single_pass_some_length _ _ _ _ _ h
      intro hnil
      rw [hnil] at hlen
      exact hk (List.eq_nil_of_length_eq_zero hlen.symm)
    rw [summarize_text, if_neg hmode1, if_neg hmode2, h]
    simp [pyTruthy, hd]
  · intro st u r2 u2 h hc
    rw [summarize_text, if_neg hmode1, if_neg hmode2, h]
    simp only [pyTruthy, Bool.false_eq_true, if_false]
    rw [hc]
    exact ⟨rfl, rfl, rfl, rfl⟩
  · intro st u er h hc
    rw [summarize_text, if_neg hmode1, if_neg hmode2, h]
    simp only [pyTruthy, Bool.false_eq_true, if_false]
    rw [hc]

/-- Witness for C5: the three auto-mode behaviors at concrete oracles (a
successful single pass; a size-failing single pass followed by a successful
chunked run; a size-failing single pass followed by a chunked run that runs
out of fuel, the model of a raised exception). -/
theorem claim5_auto_mode_witness :
    summarize_text 1 wSingleOk wChunkCall wReduceCall "auto".data none true 0
        ["f".data] "ab".data
      = ("single".data, some [("f".data, "v".data)], ⟨1, 2, 3⟩)
    ∧ summarize_text 1 wSingleFail wChunkCall wReduceCall "auto".data none true
        0 ["f".data] "ab".data
      = ("chunked".data, some [("f".data, "v".data)],
          add_usage zeroUsage ⟨1, 2, 3⟩)
    ∧ summarize_text 0 wSingleFail wChunkCall wReduceCall "auto".data none true
        0 ["f".data] "ab".data
      = ("chunked".data, none, zeroUsage) := by
  refine ⟨?_, ?_, ?_⟩
  · exact (claim5_auto_mode 1 wSingleOk wChunkCall wReduceCall none true 0
      ["f".data] "ab".data (by decide)).1 [("f".data, "v".data)] "ok".data
      ⟨1, 2, 3⟩ (by decide)
  · exact ((claim5_auto_mode 1 wSingleFail wChunkCall wReduceCall none true 0
      ["f".data] "ab".data (by decide)).2.1 "too_big".data zeroUsage
      [("f".data, "v".data)] ⟨1, 2, 3⟩ (by decide) (by decide)).1
  · exact (claim5_auto_mode 0 wSingleFail wChunkCall wReduceCall none true 0
      ["f".data] "ab".data (by decide)).2.2 "too_big".data zeroUsage
      RBErr.fuelOut (by decide) (by decide)

/-! ### Claim C10, stage 1: bridges between the executable regex model and
the declarative heading predicates -/

theorem kw_char_not_space {kw : Str} (h : KwMatch kw) :
    ∀ c ∈ kw, isSpace c = false := by
  obtain ⟨k, hk, hmap⟩ := h
  intro c hc
  have hlow : Char.toLower c ∈ k := by
    rw [← hmap]
    exact List.mem_map_of_mem _ hc
  by_contra hsp
  rw [Bool.not_eq_false] at hsp
  have hc' : c = ' ' ∨ c = '\t' ∨ c = '\n' ∨ c = '\r' ∨ c = '\x0b' ∨ c = '\x0c' := by
    simpa [isSpace, or_assoc] using hsp
  have hk' : k = "references".data ∨ k = "bibliography".data
      ∨ k = "literature".data := by
    simpa [REF_KEYWORDS] using hk
  rcases hk' with rfl | rfl | rfl <;>
    rcases hc' with rfl | rfl | rfl | rfl | rfl | rfl <;>
    revert hlow <;> decide

theorem kw_char_ne_nl {kw : Str} (h : KwMatch kw) : ∀ c ∈ kw, c ≠ '\n' := by
  intro c hc hnl
  have := kw_char_not_space h c hc
  rw [hnl] at this
  exact absurd this (by decide)

theorem kw_ne_nil {kw : Str} (h : KwMatch kw) : kw ≠ [] := by
  obtain ⟨k, hk, hmap⟩ := h
  have hk' : k = "references".data ∨ k = "bibliography".data
      ∨ k = "literature".data := by
    simpa [REF_KEYWORDS] using hk
  intro hnil
  rw [hnil] at hmap
  rcases hk' with rfl | rfl | rfl <;> exact absurd hmap.symm (by decide)

theorem kw_head {kw : Str} (h : KwMatch kw) :
    ∃ c kw', kw = c :: kw' ∧ isSpace c = false := by
  cases hkw : kw with
  | nil => exact absurd hkw (kw_ne_nil h)
  | cons c kw' =>
    refine ⟨c, kw', rfl, ?_⟩
    exact kw_char_not_space h c (by rw [hkw]; exact List.mem_cons_self _ _)

theorem matchKwAt_iff (l : Str) :
    matchKwAt l = true ↔ ∃ kw rest, l = kw ++ rest ∧ KwMatch kw ∧ Bdry rest := by
  rw [matchKwAt, List.any_eq_true]
  constructor
  · rintro ⟨k, hk, hcond⟩
    rw [Bool.and_eq_true, beq_iff_eq] at hcond
    obtain ⟨hmap, hbd⟩ := hcond
    refine ⟨l.take k.length, l.drop k.length,
      (List.take_append_drop _ _).symm, ⟨k, hk, hmap⟩, ?_⟩
    cases hd : l.drop k.length with
    | nil => exact Or.inl rfl
    | cons c r' =>
      right
      refine ⟨c, r', rfl, ?_⟩
      rw [hd, kwBoundary] at hbd
      simpa using hbd
  · rintro ⟨kw, rest, rfl, ⟨k, hk, hmap⟩, hbd⟩
    refine ⟨k, hk, ?_⟩
    rw [Bool.and_eq_true, beq_iff_eq]
    have hlen : kw.length = k.length := by rw [← hmap, List.length_map]
    refine ⟨by rw [List.take_left' hlen, hmap], ?_⟩
    have hdrop : (kw ++ rest).drop k.length = rest := by
      rw [← hlen]
      exact List.drop_left _ _
    rw [hdrop]
    rcases hbd with rfl | ⟨c, r', rfl, hcw⟩
    · rfl
    · simp [kwBoundary, hcw]

theorem dropWhile_space_append (ws v : Str) (h : SpaceOnly ws) :
    (ws ++ v).dropWhile isSpace = v.dropWhile isSpace := by
  induction ws with
  | nil => rfl
  | cons c w ih =>
    rw [List.cons_append, List.dropWhile_cons, if_pos (h c (List.mem_cons_self _ _))]
    exact ih fun c' hc' => h c' (List.mem_cons_of_mem _ hc')

theorem refHeadAt_iff (l : Str) : refHeadAt l = true ↔ HeadingFrom l := by
  rw [refHeadAt, matchKwAt_iff]
  constructor
  · rintro ⟨kw, rest, heq, hkw, hbd⟩
    refine ⟨l.takeWhile isSpace, kw, rest, ?_, ?_, hkw, hbd⟩
    · conv_lhs => rw [← List.takeWhile_append_dropWhile isSpace l]
      rw [heq, List.append_assoc]
    · intro c hc
      exact List.mem_takeWhile_imp hc
  · rintro ⟨ws, kw, rest, rfl, hws, hkw, hbd⟩
    obtain ⟨c, kw', rfl, hcns⟩ := kw_head hkw
    refine ⟨c :: kw', rest, ?_, hkw, hbd⟩
    rw [List.append_assoc, dropWhile_space_append ws _ hws, List.cons_append,
      List.dropWhile_cons, if_neg (by simp [hcns])]

theorem mem_tailsAfterNL : ∀ (s u : Str),
    u ∈ tailsAfterNL s ↔ ∃ p, s = p ++ '\n' :: u := by
  intro s
  induction s with
  | nil =>
    intro u
    simp [tailsAfterNL]
  | cons c rest ih =>
    intro u
    rw [tailsAfterNL]
    by_cases hc : c = '\n'
    · subst hc
      rw [if_pos rfl]
      constructor
      · intro hm
        rcases List.mem_cons.mp hm with rfl | hm'
        · exact ⟨[], rfl⟩
        · obtain ⟨p, hp⟩ := (ih u).mp hm'
          exact ⟨'\n' :: p, by rw [hp]; rfl⟩
      · rintro ⟨p, hp⟩
        cases p with
        | nil =>
          simp at hp
          rw [hp]
          exact List.mem_cons_self _ _
        | cons a p' =>
          rw [List.cons_append] at hp
          injection hp with h1 h2
          exact List.mem_cons_of_mem _ ((ih u).mpr ⟨p', h2⟩)
    · rw [if_neg hc]
      constructor
      · intro hm
        obtain ⟨p, hp⟩ := (ih u).mp hm
        exact ⟨c :: p, by rw [hp]; rfl⟩
      · rintro ⟨p, hp⟩
        cases p with
        | nil =>
          rw [List.nil_append] at hp
          injection hp with h1 h2
          exact absurd h1 hc
        | cons a p' =>
          rw [List.cons_append] at hp
          injection hp with h1 h2
          exact (ih u).mpr ⟨p', h2⟩

theorem hasRefHead_iff (s : Str) : hasRefHead s = true ↔ HeadingIn s := by
  rw [hasRefHead, Bool.or_eq_true, List.any_eq_true]
  constructor
  · rintro (h | ⟨u, hu, hr⟩)
    · exact ⟨[], s, rfl, Or.inl rfl, (refHeadAt_iff s).mp h⟩
    · obtain ⟨p, rfl⟩ := (mem_tailsAfterNL s u).mp hu
      exact ⟨p ++ ['\n'], u, by rw [List.append_assoc]; rfl, Or.inr ⟨p, rfl⟩,
        (refHeadAt_iff u).mp hr⟩
  · rintro ⟨pre, post, rfl, hls, hhf⟩
    rcases hls with rfl | ⟨pre', rfl⟩
    · exact Or.inl (by rw [List.nil_append]; exact (refHeadAt_iff post).mpr hhf)
    · exact Or.inr ⟨post,
        (mem_tailsAfterNL _ post).mpr ⟨pre', by rw [List.append_assoc]; rfl⟩,
        (refHeadAt_iff post).mpr hhf⟩

/-! ### Claim C10, stage 2: the first page of a text -/

theorem MOcc_nil : ¬ MOcc ([] : Str) := by
  rintro ⟨x, y, h⟩
  have hlen : ([] : Str).length = (x ++ PAGE_BREAK ++ y).length := by rw [h]
  have h26 : PAGE_BREAK.length = 26 := by decide
  simp [List.length_append, h26] at hlen
  omega

theorem firstPageRaw_append : ∀ t : Str, ∃ w, firstPageRaw t ++ w = t := by
  intro t
  induction t with
  | nil => exact ⟨[], rfl⟩
  | cons c rest ih =>
    by_cases hp : PAGE_BREAK.isPrefixOf (c :: rest) = true
    · exact ⟨c :: rest, by rw [firstPageRaw, if_pos hp]; rfl⟩
    · obtain ⟨w, hw⟩ := ih
      exact ⟨w, by rw [firstPageRaw, if_neg hp, List.cons_append, hw]⟩

theorem firstPageRaw_eq_or_marker : ∀ t : Str,
    t = firstPageRaw t ∨ ∃ z, t = firstPageRaw t ++ PAGE_BREAK ++ z := by
  intro t
  induction t with
  | nil => exact Or.inl rfl
  | cons c rest ih =>
    by_cases hp : PAGE_BREAK.isPrefixOf (c :: rest) = true
    · obtain ⟨z, hz⟩ := (isPrefixOf_iff _ _).mp hp
      refine Or.inr ⟨z, ?_⟩
      rw [firstPageRaw, if_pos hp, List.nil_append, hz]
    · rcases ih with h | ⟨z, hz⟩
      · exact Or.inl (by rw [firstPageRaw, if_neg hp, ← h])
      · refine Or.inr ⟨z, ?_⟩
        rw [firstPageRaw, if_neg hp]
        calc c :: rest = c :: (firstPageRaw rest ++ PAGE_BREAK ++ z) := by rw [← hz]
          _ = (c :: firstPageRaw rest) ++ PAGE_BREAK ++ z := by
              simp [List.append_assoc]

theorem firstPageRaw_no_marker : ∀ t : Str, ¬ MOcc (firstPageRaw t) := by
  intro t
  induction t with
  | nil => exact MOcc_nil
  | cons c rest ih =>
    by_cases hp : PAGE_BREAK.isPrefixOf (c :: rest) = true
    · rw [firstPageRaw, if_pos hp]
      exact MOcc_nil
    · rw [firstPageRaw, if_neg hp]
      rintro ⟨x, y, hxy⟩
      cases x with
      | nil =>
        rw [List.nil_append] at hxy
        obtain ⟨w, hw⟩ := firstPageRaw_append rest
        have h3 : (c :: firstPageRaw rest) ++ w = (PAGE_BREAK ++ y) ++ w := by
          rw [hxy]
        rw [List.cons_append, hw, List.append_assoc] at h3
        exact hp ((isPrefixOf_iff _ _).mpr ⟨y ++ w, h3.symm⟩)
      | cons a x' =>
        rw [List.cons_append] at hxy
        injection hxy with h1 h2
        exact ih ⟨x', y, h2⟩

theorem firstPageRaw_extends : ∀ (E w t : Str), t = E ++ w →
    (∀ x y, t = x ++ PAGE_BREAK ++ y → E.length ≤ x.length) →
    ∃ v, firstPageRaw t = E ++ v := by
  intro E
  induction E with
  | nil => intro w t _ _; exact ⟨firstPageRaw t, by rw [List.nil_append]⟩
  | cons c E' ih =>
    intro w t ht hno
    subst ht
    by_cases hp : PAGE_BREAK.isPrefixOf ((c :: E') ++ w) = true
    · exfalso
      obtain ⟨y, hy⟩ := (isPrefixOf_iff _ _).mp hp
      have h0 := hno [] y (by rw [List.nil_append, hy])
      simp at h0
    · have hno' : ∀ x y, E' ++ w = x ++ PAGE_BREAK ++ y → E'.length ≤ x.length := by
        intro x y hxy
        have h2 := hno (c :: x) y (by rw [List.cons_append, hxy, List.cons_append,
          List.cons_append])
        simpa using h2
      obtain ⟨v, hv⟩ := ih w (E' ++ w) rfl hno'
      refine ⟨v, ?_⟩
      rw [List.cons_append, firstPageRaw, if_neg (by rw [← List.cons_append]; exact hp), hv]
      rfl

theorem splitPBAux_head : ∀ (f : ℕ) (l acc : Str), l.length ≤ f →
    ∃ rest, splitPBAux f l acc = (acc.reverse ++ firstPageRaw l) :: rest := by
  intro f
  induction f with
  | zero =>
    intro l acc h
    have hl : l = [] := List.eq_nil_of_length_eq_zero (Nat.le_zero.mp h)
    subst hl
    exact ⟨[], by simp [splitPBAux, firstPageRaw]⟩
  | succ f ih =>
    intro l acc h
    cases l with
    | nil => exact ⟨[], by simp [splitPBAux, firstPageRaw]⟩
    | cons c rest =>
      by_cases hp : PAGE_BREAK.isPrefixOf (c :: rest) = true
      · refine ⟨splitPBAux f ((c :: rest).drop PAGE_BREAK.length) [], ?_⟩
        rw [splitPBAux, if_pos hp, firstPageRaw, if_pos hp, List.append_nil]
      · obtain ⟨r2, hr2⟩ := ih rest (c :: acc) (by simp at h ⊢; omega)
        refine ⟨r2, ?_⟩
        rw [splitPBAux, if_neg hp, hr2, firstPageRaw, if_neg hp,
          List.reverse_cons, List.append_assoc]
        rfl

theorem truncate_of_hasRefHead_fp (s : Str)
    (h : hasRefHead (firstPageRaw s) = true) :
    truncate_by_reference_heading s = [] := by
  obtain ⟨rest, hsp⟩ := splitPBAux_head s.length s [] le_rfl
  have hsp' : splitPages s = firstPageRaw s :: rest := by
    rw [splitPages, hsp]
    rfl
  rw [truncate_by_reference_heading, hsp']
  rw [List.findIdx?_cons, if_pos h]
  simp [rstrip, List.intercalate]

/-! ### Claim C10, stage 3: a heading in the first page, declaratively -/

theorem append_surgery {u v x w : Str} (h : u ++ v = x ++ w)
    (hle : x.length ≤ u.length) : ∃ z, u = x ++ z ∧ w = z ++ v := by
  have hx : u.take x.length = x := by
    have h1 := congrArg (List.take x.length) h
    rw [List.take_append_of_le_length hle, List.take_append_of_le_length le_rfl,
      List.take_length] at h1
    exact h1
  refine ⟨u.drop x.length, ?_, ?_⟩
  · have h3 : u = u.take x.length ++ u.drop x.length := (List.take_append_drop _ _).symm
    rw [hx] at h3
    exact h3
  · have h2 : (u.take x.length ++ u.drop x.length) ++ v = x ++ w := by
      rw [List.take_append_drop]
      exact h
    rw [hx, List.append_assoc] at h2
    exact (List.append_cancel_left h2).symm

/-- No non-empty suffix of the page-break marker agrees, case-insensitively,
with the corresponding-length prefix of a reference keyword.  A finite check
(27 suffixes against 3 keywords). -/
theorem pbKwCheck : ∀ PBt ∈ PAGE_BREAK.tails, PBt = [] ∨ ∀ k ∈ REF_KEYWORDS,
    (PBt.take k.length).map Char.toLower ≠ k.take PBt.length := by decide

theorem kw_pbt_contra {kw rest PBt y : Str} (hkw : KwMatch kw)
    (hPBt : ∃ A₂, A₂ ++ PBt = PAGE_BREAK) (hne : PBt ≠ [])
    (heq : kw ++ rest = PBt ++ y) : False := by
  obtain ⟨k, hk, hmap⟩ := hkw
  have hkl : kw.length = k.length := by rw [← hmap, List.length_map]
  have hmem : PBt ∈ PAGE_BREAK.tails := by
    obtain ⟨A₂, hA⟩ := hPBt
    exact (List.mem_tails _ _).mpr ⟨A₂, hA⟩
  rcases pbKwCheck PBt hmem with rfl | hchk
  · exact hne rfl
  · apply hchk k hk
    rcases le_or_lt PBt.length kw.length with hle | hlt
    · have h1 : kw.take PBt.length = PBt := by
        have h0 := congrArg (List.take PBt.length) heq
        rw [List.take_append_of_le_length hle, List.take_append_of_le_length le_rfl,
          List.take_length] at h0
        exact h0
      have h2 : PBt.take k.length = PBt := List.take_of_length_le (by omega)
      rw [h2]
      calc PBt.map Char.toLower
          = (kw.take PBt.length).map Char.toLower := by rw [h1]
        _ = (kw.map Char.toLower).take PBt.length := List.map_take _ _ _
        _ = k.take PBt.length := by rw [hmap]
    · have h1 : PBt.take kw.length = kw := by
        have h0 := congrArg (List.take kw.length) heq
        rw [List.take_append_of_le_length le_rfl, List.take_length,
          List.take_append_of_le_length (le_of_lt hlt)] at h0
        exact h0.symm
      have h2 : k.take PBt.length = k := List.take_of_length_le (by omega)
      rw [h2, ← hkl, h1, hmap]

theorem hfp_of_hasRefHead_fp {t : Str}
    (h : hasRefHead (firstPageRaw t) = true) : HFP t := by
  obtain ⟨pre, post, hfp_eq, hls, ⟨ws, kw, restfp, hpost, hws, hkw, hbd⟩⟩ :=
    (hasRefHead_iff _).mp h
  obtain ⟨w, hw⟩ := firstPageRaw_append t
  refine ⟨pre, ws, kw, restfp ++ w, ?_, hls, hws, hkw, ?_, ?_⟩
  · rw [← hw, hfp_eq, hpost]
    simp [List.append_assoc]
  · rcases hbd with hnil | ⟨c, r', hr, hcw⟩
    · subst hnil
      rcases firstPageRaw_eq_or_marker t with h1 | ⟨z, hz⟩
      · have h2 : firstPageRaw t ++ w = firstPageRaw t ++ [] := by
          rw [hw, List.append_nil, ← h1]
        have hwnil := List.append_cancel_left h2
        rw [List.nil_append, hwnil]
        exact Or.inl rfl
      · have h2 : firstPageRaw t ++ w = firstPageRaw t ++ (PAGE_BREAK ++ z) := by
          calc firstPageRaw t ++ w = t := hw
            _ = firstPageRaw t ++ PAGE_BREAK ++ z := hz
            _ = firstPageRaw t ++ (PAGE_BREAK ++ z) := List.append_assoc _ _ _
        have hw2 := List.append_cancel_left h2
        rw [List.nil_append, hw2]
        have hPB : PAGE_BREAK = '\n' :: "\n----- PAGE BREAK -----\n\n".data := by
          decide
        rw [hPB, List.cons_append]
        exact Or.inr ⟨'\n', _, rfl, by decide⟩
    · rw [hr, List.cons_append]
      exact Or.inr ⟨c, r' ++ w, rfl, hcw⟩
  · rintro ⟨x, y, hxy⟩
    apply firstPageRaw_no_marker t
    refine ⟨x, y ++ (kw ++ restfp), ?_⟩
    have h3 := congrArg (· ++ (kw ++ restfp)) hxy
    simp only [List.append_assoc] at h3
    rw [hfp_eq, hpost]
    simp only [List.append_assoc]
    exact h3

theorem hasRefHead_fp_of_hfp {s : Str} (h : HFP s) :
    hasRefHead (firstPageRaw s) = true := by
  obtain ⟨pre, ws, kw, rest, hs, hls, hws, hkw, hbd, hnm⟩ := h
  have hs2 : s = (pre ++ ws) ++ (kw ++ rest) := by
    rw [hs]
    simp [List.append_assoc]
  have hnoearly : ∀ x y, s = x ++ PAGE_BREAK ++ y →
      ((pre ++ ws) ++ kw).length ≤ x.length := by
    intro x y hxy
    by_contra hcon
    push_neg at hcon
    have hxy2 : (pre ++ ws) ++ (kw ++ rest) = x ++ (PAGE_BREAK ++ y) := by
      rw [← hs2, hxy, List.append_assoc]
    rcases le_or_lt (pre ++ ws).length x.length with hge | hlt2
    · obtain ⟨z, hxz, hkr⟩ := append_surgery hxy2.symm hge
      have hzlt : z.length < kw.length := by
        have h4 := congrArg List.length hxz
        rw [List.length_append] at h4
        rw [List.length_append] at hcon
        omega
      obtain ⟨z₂, hkz, hpy⟩ := append_surgery hkr (le_of_lt hzlt)
      cases z₂ with
      | nil =>
        rw [List.append_nil] at hkz
        rw [hkz] at hzlt
        exact lt_irrefl _ hzlt
      | cons c₀ z₂' =>
        have hPB : PAGE_BREAK = '\n' :: "\n----- PAGE BREAK -----\n\n".data := by
          decide
        rw [hPB, List.cons_append] at hpy
        injection hpy with h1 _
        have hc₀ : c₀ ∈ kw := by
          rw [hkz]
          exact List.mem_append_right _ (List.mem_cons_self _ _)
        exact kw_char_ne_nl hkw c₀ hc₀ h1.symm
    · obtain ⟨A₂, hA2, hpy⟩ := append_surgery hxy2 (le_of_lt hlt2)
      have hA₂ne : A₂ ≠ [] := by
        intro hnil
        rw [hnil, List.append_nil] at hA2
        rw [hA2] at hlt2
        exact lt_irrefl _ hlt2
      rcases le_or_lt PAGE_BREAK.length A₂.length with h26 | hlt3
      · obtain ⟨A₃, hA3, _⟩ := append_surgery hpy.symm h26
        refine hnm ⟨x, A₃, ?_⟩
        rw [hA2, hA3, List.append_assoc]
      · obtain ⟨PBt, hPBs, hkr⟩ := append_surgery hpy (le_of_lt hlt3)
        have hPBtne : PBt ≠ [] := by
          intro hnil
          rw [hnil, List.append_nil] at hPBs
          rw [← hPBs] at hlt3
          exact lt_irrefl _ hlt3
        exact kw_pbt_contra hkw ⟨A₂, hPBs.symm⟩ hPBtne hkr
  obtain ⟨v, hv⟩ := firstPageRaw_extends ((pre ++ ws) ++ kw) rest s
    (by rw [hs2]; simp [List.append_assoc]) hnoearly
  obtain ⟨w, hw⟩ := firstPageRaw_append s
  have h1 : ((pre ++ ws) ++ kw) ++ rest = ((pre ++ ws) ++ kw) ++ (v ++ w) := by
    calc ((pre ++ ws) ++ kw) ++ rest
        = (pre ++ ws) ++ (kw ++ rest) := List.append_assoc _ _ _
      _ = s := hs2.symm
      _ = firstPageRaw s ++ w := hw.symm
      _ = (((pre ++ ws) ++ kw) ++ v) ++ w := by rw [hv]
      _ = ((pre ++ ws) ++ kw) ++ (v ++ w) := List.append_assoc _ _ _
  have hrest : rest = v ++ w := List.append_cancel_left h1
  have hbv : Bdry v := by
    rcases hbd with hnil | ⟨c, r', hr, hcw⟩
    · rw [hnil] at hrest
      exact Or.inl (List.append_eq_nil.mp hrest.symm).1
    · rw [hr] at hrest
      cases v with
      | nil => exact Or.inl rfl
      | cons c₀ v' =>
        rw [List.cons_append] at hrest
        injection hrest with h2 h3
        exact Or.inr ⟨c₀, v', rfl, h2 ▸ hcw⟩
  rw [hasRefHead_iff]
  refine ⟨pre, ws ++ (kw ++ v), ?_, hls,
    ⟨ws, kw, v, (List.append_assoc ws kw v).symm, hws, hkw, hbv⟩⟩
  rw [hv]
  simp [List.append_assoc]

/-! ### Claim C10, stage 4: structure of newline collapsing -/

theorem stateAfter_nil (k : ℕ) : stateAfter k [] = k := rfl

theorem stateAfter_cons (k : ℕ) (c : Char) (u : Str) :
    stateAfter k (c :: u)
      = stateAfter (if c = '\n' then (if 2 ≤ k then k else k + 1) else 0) u := rfl

theorem collapseNLAux_append : ∀ (u : Str) (k : ℕ) (v : Str),
    collapseNLAux k (u ++ v)
      = collapseNLAux k u ++ collapseNLAux (stateAfter k u) v := by
  intro u
  induction u with
  | nil => intro k v; rfl
  | cons c u' ih =>
    intro k v
    rw [List.cons_append, collapseNLAux, stateAfter_cons]
    by_cases hc : c = '\n'
    · rw [if_pos hc]
      by_cases hk : 2 ≤ k
      · rw [if_pos hk, ih]
        conv_rhs => rw [collapseNLAux, if_pos hc, if_pos hk]
        simp [hc, hk]
      · rw [if_neg hk, ih]
        conv_rhs => rw [collapseNLAux, if_pos hc, if_neg hk]
        rw [List.cons_append]
        simp [hc, hk]
    · rw [if_neg hc, ih]
      conv_rhs => rw [collapseNLAux, if_neg hc]
      rw [List.cons_append]
      simp [hc]

theorem collapseNLAux_nl_free : ∀ (u : Str), (∀ c ∈ u, c ≠ '\n') →
    ∀ k, collapseNLAux k u = u := by
  intro u
  induction u with
  | nil => intro _ k; rfl
  | cons c u' ih =>
    intro h k
    rw [collapseNLAux, if_neg (h c (List.mem_cons_self _ _)),
      ih fun c' hc' => h c' (List.mem_cons_of_mem _ hc')]

theorem stateAfter_zero_nl_free : ∀ (u : Str), (∀ c ∈ u, c ≠ '\n') →
    stateAfter 0 u = 0 := by
  intro u
  induction u with
  | nil => intro _; rfl
  | cons c u' ih =>
    intro h
    rw [stateAfter_cons, if_neg (h c (List.mem_cons_self _ _))]
    exact ih fun c' hc' => h c' (List.mem_cons_of_mem _ hc')

theorem collapseNLAux_sublist : ∀ (u : Str) (k : ℕ),
    (collapseNLAux k u).Sublist u := by
  intro u
  induction u with
  | nil => intro k; exact List.Sublist.refl _
  | cons c u' ih =>
    intro k
    rw [collapseNLAux]
    by_cases hc : c = '\n'
    · rw [if_pos hc]
      by_cases hk : 2 ≤ k
      · rw [if_pos hk]
        exact List.Sublist.cons _ (ih k)
      · rw [if_neg hk, hc]
        exact List.Sublist.cons₂ _ (ih (k + 1))
    · rw [if_neg hc]
      exact List.Sublist.cons₂ _ (ih 0)

theorem collapseNLAux_head_not_nl : ∀ (v : Str) (k k' : ℕ),
    (v = [] ∨ ∃ c v', v = c :: v' ∧ c ≠ '\n') →
    collapseNLAux k v = collapseNLAux k' v := by
  rintro v k k' (rfl | ⟨c, v', rfl, hc⟩)
  · rfl
  · rw [collapseNLAux, collapseNLAux, if_neg hc, if_neg hc]

theorem collapse_head_not_nl (d : Char) (D' : Str) (hd : d ≠ '\n') :
    collapseNLAux 0 (d :: D') = d :: collapseNLAux 0 D' := by
  rw [collapseNLAux, if_neg hd]

theorem collapseNLAux_run_ge2 : ∀ (j k : ℕ) (v : Str), 2 ≤ k →
    collapseNLAux k (List.replicate j '\n' ++ v) = collapseNLAux k v := by
  intro j
  induction j with
  | zero => intro k v _; rfl
  | succ j ih =>
    intro k v hk
    rw [List.replicate_succ, List.cons_append, collapseNLAux, if_pos rfl,
      if_pos hk]
    exact ih k v hk

theorem collapseNLAux_zero_run (a : ℕ) (v : Str) (ha : 1 ≤ a)
    (hv : v = [] ∨ ∃ c v', v = c :: v' ∧ c ≠ '\n') :
    collapseNLAux 0 (List.replicate a '\n' ++ v)
      = List.replicate (min a 2) '\n' ++ collapseNLAux 0 v := by
  match a, ha with
  | 1, _ =>
    rw [List.replicate_succ, List.replicate_zero, List.cons_append,
      List.nil_append, collapseNLAux, if_pos rfl]
    rw [if_neg (by omega)]
    have hmin : min 1 2 = 1 := by decide
    rw [hmin, List.replicate_succ, List.replicate_zero, List.cons_append,
      List.nil_append, collapseNLAux_head_not_nl v 1 0 hv]
  | (j + 2), _ =>
    rw [show j + 2 = 2 + j by omega, List.replicate_add, List.append_assoc]
    rw [List.replicate_succ, List.replicate_succ, List.replicate_zero,
      List.cons_append, List.cons_append, List.nil_append]
    rw [collapseNLAux, if_pos rfl, if_neg (by omega)]
    rw [collapseNLAux, if_pos rfl, if_neg (by omega)]
    rw [collapseNLAux_run_ge2 j 2 v (by omega)]
    rw [collapseNLAux_head_not_nl v 2 0 hv]
    have hmin : min (2 + j) 2 = 2 := by omega
    rw [hmin]
    rfl

theorem dropWhile_head_not (p : Char → Bool) :
    ∀ (l : Str) (c : Char) (l' : Str), l.dropWhile p = c :: l' → p c = false := by
  intro l
  induction l with
  | nil => intro c l' h; cases h
  | cons a t ih =>
    intro c l' h
    rw [List.dropWhile_cons] at h
    by_cases ha : p a = true
    · rw [if_pos ha] at h
      exact ih c l' h
    · rw [if_neg ha] at h
      injection h with h1 _
      rw [← h1]
      exact Bool.not_eq_true _ ▸ (by simpa using ha)

theorem first_run_decomp : ∀ A : Str, (∀ c ∈ A, c ≠ '\n') ∨
    ∃ C a D, A = C ++ List.replicate a '\n' ++ D ∧ (∀ c ∈ C, c ≠ '\n') ∧ 1 ≤ a
      ∧ (D = [] ∨ ∃ d D', D = d :: D' ∧ d ≠ '\n') := by
  intro A
  by_cases hA : ∀ c ∈ A, c ≠ '\n'
  · exact Or.inl hA
  · right
    push_neg at hA
    obtain ⟨c₀, hc₀mem, hc₀⟩ := hA
    have hR : A.dropWhile (fun c => !(c == '\n')) ≠ [] := by
      intro hnil
      have : ∀ c ∈ A, (fun c => !(c == '\n')) c = true := by
        rw [← List.takeWhile_append_dropWhile (fun c => !(c == '\n')) A, hnil,
          List.append_nil]
        intro c hc
        exact @List.mem_takeWhile_imp Char (fun c => !(c == '\n')) A c hc
      have := this c₀ hc₀mem
      simp [hc₀] at this
    set R := A.dropWhile (fun c => !(c == '\n')) with hRdef
    cases hRc : R with
    | nil => exact absurd hRc hR
    | cons r R' =>
      have hrnl : r = '\n' := by
        have := dropWhile_head_not (fun c => !(c == '\n')) A r R' (by rw [← hRdef, hRc])
        simpa using this
      refine ⟨A.takeWhile (fun c => !(c == '\n')),
        (R.takeWhile (fun c => c == '\n')).length,
        R.dropWhile (fun c => c == '\n'), ?_, ?_, ?_, ?_⟩
      · have h1 : R.takeWhile (fun c => c == '\n')
            = List.replicate (R.takeWhile (fun c => c == '\n')).length '\n' := by
          apply List.eq_replicate_of_mem
          intro b hb
          have := @List.mem_takeWhile_imp Char (fun c => c == '\n') R b hb
          simpa using this
        rw [← h1, List.append_assoc, List.takeWhile_append_dropWhile,
          List.takeWhile_append_dropWhile]
      · intro c hc
        have := @List.mem_takeWhile_imp Char (fun c => !(c == '\n')) A c hc
        simpa using this
      · rw [hRc, List.takeWhile_cons, if_pos (by simp [hrnl])]
        simp
      · cases hD : R.dropWhile (fun c => c == '\n') with
        | nil => exact Or.inl rfl
        | cons d D' =>
          right
          refine ⟨d, D', rfl, ?_⟩
          have := dropWhile_head_not (fun c => c == '\n') R d D' hD
          simpa using this

theorem collapse_decomp (C : Str) (a : ℕ) (D : Str)
    (hC : ∀ c ∈ C, c ≠ '\n') (ha : 1 ≤ a)
    (hD : D = [] ∨ ∃ d D', D = d :: D' ∧ d ≠ '\n') :
    collapseNLAux 0 (C ++ List.replicate a '\n' ++ D)
      = C ++ List.replicate (min a 2) '\n' ++ collapseNLAux 0 D := by
  rw [List.append_assoc, collapseNLAux_append, collapseNLAux_nl_free C hC,
    stateAfter_zero_nl_free C hC, collapseNLAux_zero_run a D ha hD,
    List.append_assoc]

theorem nlfree_factor_unique : ∀ (E₁ E₂ Z₁ Z₂ : Str),
    (∀ c ∈ E₁, c ≠ '\n') → (∀ c ∈ E₂, c ≠ '\n') →
    E₁ ++ '\n' :: Z₁ = E₂ ++ '\n' :: Z₂ → E₁ = E₂ ∧ Z₁ = Z₂ := by
  intro E₁
  induction E₁ with
  | nil =>
    intro E₂ Z₁ Z₂ _ h2 heq
    cases E₂ with
    | nil =>
      rw [List.nil_append, List.nil_append] at heq
      injection heq with _ hb
      exact ⟨rfl, hb⟩
    | cons e E₂' =>
      rw [List.nil_append, List.cons_append] at heq
      injection heq with ha _
      exact absurd ha.symm (h2 e (List.mem_cons_self _ _))
  | cons e₁ E₁' ih =>
    intro E₂ Z₁ Z₂ h1 h2 heq
    cases E₂ with
    | nil =>
      rw [List.nil_append, List.cons_append] at heq
      injection heq with ha _
      exact absurd ha (h1 e₁ (List.mem_cons_self _ _))
    | cons e₂ E₂' =>
      rw [List.cons_append, List.cons_append] at heq
      injection heq with ha hb
      obtain ⟨hE, hZ⟩ := ih E₂' Z₁ Z₂
        (fun c hc => h1 c (List.mem_cons_of_mem _ hc))
        (fun c hc => h2 c (List.mem_cons_of_mem _ hc)) hb
      exact ⟨by rw [ha, hE], hZ⟩

/-- Collapsing newline runs never creates a page-break marker occurrence:
any occurrence in the collapsed text pulls back to one in the original. -/
theorem collapse_no_new_marker : ∀ A : Str, MOcc (collapseNLAux 0 A) → MOcc A := by
  suffices H : ∀ n (A : Str), A.length ≤ n → MOcc (collapseNLAux 0 A) → MOcc A by
    intro A
    exact H A.length A le_rfl
  intro n
  induction n with
  | zero =>
    intro A hA hM
    have hAnil : A = [] := List.eq_nil_of_length_eq_zero (Nat.le_zero.mp hA)
    subst hAnil
    exact absurd hM MOcc_nil
  | succ n ih =>
    intro A hA hM
    rcases first_run_decomp A with hfree | ⟨C, a, D, hAeq, hC, ha, hD⟩
    · rw [collapseNLAux_nl_free A hfree 0] at hM
      exact hM
    · subst hAeq
      rw [collapse_decomp C a D hC ha hD] at hM
      obtain ⟨x, y, hxy⟩ := hM
      have hxy2 : C ++ (List.replicate (min a 2) '\n' ++ collapseNLAux 0 D)
          = x ++ (PAGE_BREAK ++ y) := by
        simpa only [List.append_assoc] using hxy
      have hm1 : 1 ≤ min a 2 := by omega
      have hm2 : min a 2 ≤ 2 := by omega
      rcases lt_or_ge x.length C.length with hx1 | hx1
      · exfalso
        obtain ⟨z, hCz, hPBz⟩ := append_surgery hxy2 (le_of_lt hx1)
        have hzne : z ≠ [] := by
          intro hnil
          rw [hnil, List.append_nil] at hCz
          rw [hCz] at hx1
          exact lt_irrefl _ hx1
        cases z with
        | nil => exact hzne rfl
        | cons z₀ z' =>
          have hPBhead : PAGE_BREAK = '\n' :: "\n----- PAGE BREAK -----\n\n".data := by
            decide
          rw [hPBhead, List.cons_append, List.cons_append] at hPBz
          injection hPBz with h1 _
          exact hC z₀ (by rw [hCz]; exact List.mem_append_right _ (List.mem_cons_self _ _))
            h1.symm
      · rcases lt_or_ge x.length (C.length + min a 2) with hx2 | hx2
        · -- the occurrence straddles the collapsed newline run
          obtain ⟨x₂, hxeq, hrep⟩ := append_surgery hxy2.symm hx1
          have hx₂m : x₂.length < min a 2 := by
            have hlx := congrArg List.length hxeq
            rw [List.length_append] at hlx
            omega
          obtain ⟨r₂, hrepsplit, hPBr⟩ := append_surgery hrep
            (by rw [List.length_replicate]; exact le_of_lt hx₂m)
          have hr₂rep : r₂ = List.replicate r₂.length '\n' := by
            apply List.eq_replicate_of_mem
            intro b hb
            exact List.eq_of_mem_replicate
              (by rw [hrepsplit]; exact List.mem_append_right _ hb)
          have hr₂len : r₂.length = min a 2 - x₂.length := by
            have hlr := congrArg List.length hrepsplit
            rw [List.length_replicate, List.length_append] at hlr
            omega
          have hCDhead : collapseNLAux 0 D = [] ∨
              ∃ d D', collapseNLAux 0 D = d :: D' ∧ d ≠ '\n' := by
            rcases hD with rfl | ⟨d, D', rfl, hd⟩
            · exact Or.inl rfl
            · rw [collapse_head_not_nl d D' hd]
              exact Or.inr ⟨d, _, rfl, hd⟩
          have hr12 : r₂.length = 1 ∨ r₂.length = 2 := by omega
          rcases hr12 with hr1 | hr2
          · exfalso
            have hr₂ : r₂ = ['\n'] := by rw [hr₂rep, hr1]; rfl
            rw [hr₂] at hPBr
            have hPBhead : PAGE_BREAK = '\n' :: "\n----- PAGE BREAK -----\n\n".data := by
              decide
            rw [hPBhead, List.cons_append, List.singleton_append] at hPBr
            injection hPBr with _ h2
            rcases hCDhead with hnil | ⟨d, D', hDeq, hd⟩
            · rw [hnil] at h2
              have hl := congrArg List.length h2
              have h25 : ("\n----- PAGE BREAK -----\n\n".data : Str).length = 25 := by
                decide
              rw [List.length_append, h25] at hl
              simp at hl
            · rw [hDeq] at h2
              have hPBt : ("\n----- PAGE BREAK -----\n\n".data : Str)
                  = '\n' :: "----- PAGE BREAK -----\n\n".data := by decide
              rw [hPBt, List.cons_append] at h2
              injection h2 with h3 _
              exact hd h3.symm
          · -- full marker alignment at the run
            have hmm : min a 2 = 2 := by omega
            have haa : 2 ≤ a := by omega
            have hr₂ : r₂ = ['\n', '\n'] := by rw [hr₂rep, hr2]; rfl
            rw [hr₂] at hPBr
            have hPB2 : PAGE_BREAK = '\n' :: '\n' :: (PBody ++ ['\n', '\n']) := by
              decide
            rw [hPB2, List.cons_append, List.cons_append] at hPBr
            have hPBr' : '\n' :: '\n' :: ((PBody ++ ['\n', '\n']) ++ y)
                = '\n' :: '\n' :: collapseNLAux 0 D := by
              simpa using hPBr
            injection hPBr' with _ h2
            injection h2 with _ h3
            have hCD : collapseNLAux 0 D = PBody ++ ('\n' :: '\n' :: y) := by
              rw [← h3]
              simp [List.append_assoc]
            rcases first_run_decomp D with hDfree | ⟨E, b, F, hDeq, hE, hb, hF⟩
            · exfalso
              rw [collapseNLAux_nl_free D hDfree 0] at hCD
              refine hDfree '\n' ?_ rfl
              rw [hCD]
              exact List.mem_append_right _ (List.mem_cons_self _ _)
            · subst hDeq
              rw [collapse_decomp E b F hE hb hF] at hCD
              have hmb1 : 1 ≤ min b 2 := by omega
              have hrepmb : List.replicate (min b 2) '\n'
                  = '\n' :: List.replicate (min b 2 - 1) '\n' := by
                have hb' : min b 2 = (min b 2 - 1) + 1 := by omega
                conv_lhs => rw [hb']
                rw [List.replicate_succ]
              have hCD2 : E ++ '\n' :: (List.replicate (min b 2 - 1) '\n'
                    ++ collapseNLAux 0 F)
                  = PBody ++ '\n' :: ('\n' :: y) := by
                have h4 := hCD
                simp only [List.append_assoc] at h4
                rw [hrepmb] at h4
                simpa using h4
              have hPBodyfree : ∀ c ∈ PBody, c ≠ '\n' := by decide
              obtain ⟨hEeq, hZeq⟩ :=
                nlfree_factor_unique E PBody _ _ hE hPBodyfree hCD2
              have hCFhead : collapseNLAux 0 F = [] ∨
                  ∃ f F', collapseNLAux 0 F = f :: F' ∧ f ≠ '\n' := by
                rcases hF with rfl | ⟨f, F', rfl, hf⟩
                · exact Or.inl rfl
                · rw [collapse_head_not_nl f F' hf]
                  exact Or.inr ⟨f, _, rfl, hf⟩
              have hmb2 : min b 2 = 2 := by
                by_contra hne
                have hmb1' : min b 2 = 1 := by omega
                rw [hmb1'] at hZeq
                simp only [Nat.sub_self, List.replicate_zero, List.nil_append] at hZeq
                rcases hCFhead with hnil | ⟨f, F', hFeq, hf⟩
                · rw [hnil] at hZeq
                  exact absurd hZeq (by simp)
                · rw [hFeq] at hZeq
                  injection hZeq with hf1 _
                  exact hf hf1
              have hbb : 2 ≤ b := by omega
              refine ⟨C ++ List.replicate (a - 2) '\n',
                List.replicate (b - 2) '\n' ++ F, ?_⟩
              rw [hEeq]
              have hPBfull : PAGE_BREAK
                  = List.replicate 2 '\n' ++ PBody ++ List.replicate 2 '\n' := by
                decide
              rw [hPBfull]
              have ha' : a = (a - 2) + 2 := by omega
              have hb' : b = 2 + (b - 2) := by omega
              conv_lhs => rw [ha', hb']
              rw [List.replicate_add, List.replicate_add]
              simp [List.append_assoc]
        · -- the occurrence lies entirely inside the collapsed tail
          obtain ⟨x₂, hxeq, hrep⟩ := append_surgery hxy2.symm hx1
          have hx₂m : min a 2 ≤ x₂.length := by
            have hlx := congrArg List.length hxeq
            rw [List.length_append] at hlx
            omega
          obtain ⟨x₃, hx₃eq, hCDeq⟩ := append_surgery hrep.symm
            (by rw [List.length_replicate]; exact hx₂m)
          have hMD : MOcc D := by
            apply ih D
            · have hlA := hA
              rw [List.length_append, List.length_append, List.length_replicate] at hlA
              omega
            · exact ⟨x₃, y, by rw [hCDeq]; simp [List.append_assoc]⟩
          obtain ⟨x₄, y₄, hD4⟩ := hMD
          refine ⟨C ++ List.replicate a '\n' ++ x₄, y₄, ?_⟩
          rw [hD4]
          simp [List.append_assoc]

/-! ### Claim C10, stage 5: the heading-in-first-page property survives
cleaning -/

theorem hfp_lstrip {s : Str} (h : HFP s) : HFP (lstrip s) := by
  obtain ⟨pre, ws, kw, rest, hs, hls, hws, hkw, hbd, hnm⟩ := h
  have hsw : s.takeWhile isSpace ++ lstrip s = s :=
    List.takeWhile_append_dropWhile _ _
  have hwspace : SpaceOnly (s.takeWhile isSpace) := fun c hc =>
    @List.mem_takeWhile_imp Char isSpace s c hc
  obtain ⟨k0, kw', hkweq, hk0⟩ := kw_head hkw
  have hs2 : (pre ++ ws) ++ (kw ++ rest) = s.takeWhile isSpace ++ lstrip s := by
    rw [hsw, hs]
    simp [List.append_assoc]
  have hwle : (s.takeWhile isSpace).length ≤ (pre ++ ws).length := by
    by_contra hgt
    push_neg at hgt
    obtain ⟨z, hzeq, hkr⟩ := append_surgery hs2.symm (le_of_lt hgt)
    have hzne : z ≠ [] := by
      intro hnil
      rw [hnil, List.append_nil] at hzeq
      rw [← hzeq] at hgt
      exact lt_irrefl _ hgt
    cases z with
    | nil => exact hzne rfl
    | cons z₀ z' =>
      rw [hkweq, List.cons_append, List.cons_append] at hkr
      injection hkr with h1 _
      have hsp : isSpace z₀ = true := hwspace z₀
        (by rw [hzeq]; exact List.mem_append_right _ (List.mem_cons_self _ _))
      rw [← h1, hk0] at hsp
      exact absurd hsp (by decide)
  obtain ⟨A₂, hA2, hm⟩ := append_surgery hs2 hwle
  rcases le_or_lt pre.length (s.takeWhile isSpace).length with hple | hplt
  · have hA2space : SpaceOnly A₂ := by
      obtain ⟨w₂, _, hwsplit⟩ := append_surgery hA2.symm hple
      intro c hc
      exact hws c (by rw [hwsplit]; exact List.mem_append_right _ hc)
    refine ⟨[], A₂, kw, rest, ?_, Or.inl rfl, hA2space, hkw, hbd, ?_⟩
    · rw [hm]
      simp [List.append_assoc]
    · rintro ⟨x, y, hxy⟩
      rw [List.nil_append] at hxy
      refine hnm ⟨s.takeWhile isSpace ++ x, y, ?_⟩
      rw [hA2, hxy]
      simp [List.append_assoc]
  · obtain ⟨pre₂, hpre2, hwsA⟩ := append_surgery hA2 (le_of_lt hplt)
    have hpre₂ne : pre₂ ≠ [] := by
      intro hnil
      rw [hnil, List.append_nil] at hpre2
      rw [hpre2] at hplt
      exact lt_irrefl _ hplt
    rcases hls with rfl | ⟨pre₀, hpre₀⟩
    · simp at hplt
    · rw [hpre₀] at hpre2
      have hlen2 : (s.takeWhile isSpace).length ≤ pre₀.length := by
        have hl1 := congrArg List.length hpre2
        rw [List.length_append, List.length_append] at hl1
        have hp2 : 1 ≤ pre₂.length := List.length_pos.mpr hpre₂ne
        simp at hl1
        omega
      obtain ⟨z, hz, hpre₂eq⟩ := append_surgery hpre2 hlen2
      refine ⟨pre₂, ws, kw, rest, ?_, Or.inr ⟨z, hpre₂eq⟩, hws, hkw, hbd, ?_⟩
      · rw [hm, hwsA]
        simp [List.append_assoc]
      · rintro ⟨x, y, hxy⟩
        refine hnm ⟨s.takeWhile isSpace ++ x, y, ?_⟩
        rw [hA2, hwsA, hxy]
        simp [List.append_assoc]

theorem hfp_rstrip {s : Str} (h : HFP s) : HFP (rstrip s) := by
  obtain ⟨pre, ws, kw, rest, hs, hls, hws, hkw, hbd, hnm⟩ := h
  have hsw : rstrip s ++ (s.reverse.takeWhile isSpace).reverse = s :=
    rstrip_append_takeWhile s
  have hwspace : SpaceOnly ((s.reverse.takeWhile isSpace).reverse) := by
    intro c hc
    rw [List.mem_reverse] at hc
    exact @List.mem_takeWhile_imp Char isSpace s.reverse c hc
  obtain ⟨k0, kw', hkweq, hk0⟩ := kw_head hkw
  have hs2 : ((pre ++ ws) ++ kw) ++ rest
      = rstrip s ++ (s.reverse.takeWhile isSpace).reverse := by
    rw [hsw, hs]
  have hEle : ((pre ++ ws) ++ kw).length ≤ (rstrip s).length := by
    by_contra hgt
    push_neg at hgt
    obtain ⟨E₂, hE2, hwrest⟩ := append_surgery hs2 (le_of_lt hgt)
    have hE₂ne : E₂ ≠ [] := by
      intro hnil
      rw [hnil, List.append_nil] at hE2
      rw [hE2] at hgt
      exact lt_irrefl _ hgt
    have hspace₂ : SpaceOnly E₂ := by
      intro c hc
      exact hwspace c (by rw [hwrest]; exact List.mem_append_left _ hc)
    rcases le_or_lt (pre ++ ws).length (rstrip s).length with hAle | hAlt
    · obtain ⟨z, _, hkwsplit⟩ := append_surgery hE2.symm hAle
      cases hE₂c : E₂ with
      | nil => exact hE₂ne hE₂c
      | cons e₂ E₂' =>
        have hmem : e₂ ∈ kw := by
          rw [hkwsplit, hE₂c]
          exact List.mem_append_right _ (List.mem_cons_self _ _)
        have h1 := kw_char_not_space hkw e₂ hmem
        have h2 := hspace₂ e₂ (by rw [hE₂c]; exact List.mem_cons_self _ _)
        rw [h1] at h2
        exact absurd h2 (by decide)
    · obtain ⟨z, _, hE₂split⟩ := append_surgery hE2 (le_of_lt hAlt)
      have hmem : k0 ∈ E₂ := by
        rw [hE₂split, hkweq]
        exact List.mem_append_right _ (List.mem_cons_self _ _)
      have h2 := hspace₂ k0 hmem
      rw [hk0] at h2
      exact absurd h2 (by decide)
  obtain ⟨rest₂, hmeq, hrw⟩ := append_surgery hs2.symm hEle
  have hbd₂ : Bdry rest₂ := by
    rcases hbd with hnl | ⟨c, r', hr, hcw⟩
    · rw [hnl] at hrw
      exact Or.inl (List.append_eq_nil.mp hrw.symm).1
    · rw [hr] at hrw
      cases rest₂ with
      | nil => exact Or.inl rfl
      | cons c₀ r₂' =>
        rw [List.cons_append] at hrw
        injection hrw with h1 _
        exact Or.inr ⟨c₀, r₂', rfl, h1 ▸ hcw⟩
  refine ⟨pre, ws, kw, rest₂, ?_, hls, hws, hkw, hbd₂, hnm⟩
  rw [hmeq]

theorem stateAfter_last_not_nl (k : ℕ) (u : Str) (c : Char) (hc : c ≠ '\n') :
    stateAfter k (u ++ [c]) = 0 := by
  rw [stateAfter, List.foldl_append]
  simp [hc]

theorem split_last_nl : ∀ (A₀ S₀ : Str), SpaceOnly S₀ →
    ∃ B S, A₀ ++ '\n' :: S₀ = B ++ '\n' :: S ∧ SpaceOnly S ∧
      (B = [] ∨ ∃ B₀ b, B = B₀ ++ [b] ∧ b ≠ '\n') := by
  intro A₀
  induction A₀ using List.reverseRecOn with
  | nil => intro S₀ hS; exact ⟨[], S₀, rfl, hS, Or.inl rfl⟩
  | append_singleton B₀ b ih =>
    intro S₀ hS
    by_cases hb : b = '\n'
    · subst hb
      obtain ⟨B, S, heq, hSS, hB⟩ := ih ('\n' :: S₀) (by
        intro c hc
        rcases List.mem_cons.mp hc with rfl | hc'
        · decide
        · exact hS c hc')
      refine ⟨B, S, ?_, hSS, hB⟩
      rw [← heq]
      simp [List.append_assoc]
    · exact ⟨B₀ ++ [b], S₀, rfl, hS, Or.inr ⟨B₀, b, rfl, hb⟩⟩

theorem hfp_collapse {t : Str} (h : HFP t) : HFP (collapse_newlines t) := by
  obtain ⟨pre, ws, kw, rest, hs, hls, hws, hkw, hbd, hnm⟩ := h
  have hkwfree : ∀ c ∈ kw, c ≠ '\n' := kw_char_ne_nl hkw
  obtain ⟨k0, kw', hkweq, hk0⟩ := kw_head hkw
  have hk0nl : k0 ≠ '\n' := by
    intro hnl
    rw [hnl] at hk0
    exact absurd hk0 (by decide)
  have hkwhead : kw ++ rest = [] ∨ ∃ c v', kw ++ rest = c :: v' ∧ c ≠ '\n' :=
    Or.inr ⟨k0, kw' ++ rest, by rw [hkweq, List.cons_append], hk0nl⟩
  have hfact : collapseNLAux 0 ((pre ++ ws) ++ (kw ++ rest))
      = collapseNLAux 0 (pre ++ ws) ++ (kw ++ collapseNLAux 0 rest) := by
    rw [collapseNLAux_append]
    congr 1
    rw [collapseNLAux_head_not_nl (kw ++ rest) (stateAfter 0 (pre ++ ws)) 0 hkwhead]
    rw [collapseNLAux_append, collapseNLAux_nl_free kw hkwfree,
      stateAfter_zero_nl_free kw hkwfree]
  have hteq : t = (pre ++ ws) ++ (kw ++ rest) := by
    rw [hs]
    simp [List.append_assoc]
  have hct : collapse_newlines t
      = collapseNLAux 0 (pre ++ ws) ++ (kw ++ collapseNLAux 0 rest) := by
    rw [collapse_newlines, hteq]
    exact hfact
  have hnm' : ¬ MOcc (collapseNLAux 0 (pre ++ ws)) := fun hM =>
    hnm (collapse_no_new_marker _ hM)
  have hbd' : Bdry (collapseNLAux 0 rest) := by
    rcases hbd with rfl | ⟨c, r', rfl, hcw⟩
    · exact Or.inl rfl
    · by_cases hcnl : c = '\n'
      · subst hcnl
        rw [collapseNLAux, if_pos rfl, if_neg (by omega)]
        exact Or.inr ⟨'\n', _, rfl, by decide⟩
      · rw [collapse_head_not_nl c r' hcnl]
        exact Or.inr ⟨c, _, rfl, hcw⟩
  rcases hls with rfl | ⟨pre₀, hpre₀⟩
  · have hch : SpaceOnly (collapseNLAux 0 ([] ++ ws)) := by
      intro c hc
      have hmem : c ∈ [] ++ ws := List.Sublist.mem hc (collapseNLAux_sublist _ 0)
      exact hws c (by simpa using hmem)
    refine ⟨[], collapseNLAux 0 ([] ++ ws), kw, collapseNLAux 0 rest, ?_,
      Or.inl rfl, hch, hkw, hbd', ?_⟩
    · rw [hct]
      simp [List.append_assoc]
    · intro hM
      apply hnm'
      simpa using hM
  · obtain ⟨B, S, hsplit, hSS, hB⟩ := split_last_nl pre₀ ws hws
    have hAB : pre ++ ws = B ++ '\n' :: S := by
      rw [hpre₀, ← hsplit]
      simp [List.append_assoc]
    have hstate : stateAfter 0 B = 0 := by
      rcases hB with rfl | ⟨B₀, b, rfl, hb⟩
      · rfl
      · exact stateAfter_last_not_nl 0 B₀ b hb
    have hstep : collapseNLAux 0 ('\n' :: S) = '\n' :: collapseNLAux 1 S := by
      rw [collapseNLAux, if_pos rfl, if_neg (by omega)]
    have hCA : collapseNLAux 0 (pre ++ ws)
        = collapseNLAux 0 B ++ '\n' :: collapseNLAux 1 S := by
      rw [hAB, collapseNLAux_append B 0 ('\n' :: S), hstate, hstep]
    refine ⟨collapseNLAux 0 B ++ ['\n'], collapseNLAux 1 S, kw,
      collapseNLAux 0 rest, ?_, Or.inr ⟨collapseNLAux 0 B, rfl⟩, ?_, hkw, hbd', ?_⟩
    · rw [hct, hCA]
      simp [List.append_assoc]
    · intro c hc
      exact hSS c (List.Sublist.mem hc (collapseNLAux_sublist S 1))
    · intro hM
      apply hnm'
      rw [hCA]
      obtain ⟨x, y, hxy⟩ := hM
      refine ⟨x, y, ?_⟩
      rw [← hxy]
      simp [List.append_assoc]

/-- C10.  For every non-empty input text whose first page (the text before
the first page-break marker) contains a line beginning, after optional
whitespace, with `references`, `bibliography` or `literature`
(case-insensitively, at a word boundary), the preprocessor with the
semantic-truncation flag set returns the empty string: the matching page and
everything after it are discarded, leaving nothing. -/
theorem claim10_reference_heading_empties (t : Str) (hne : t ≠ [])
    (h : hasRefHead (firstPageRaw t) = true) :
    clean_text t none true = [] := by
  have h1 : HFP t := hfp_of_hasRefHead_fp h
  have h2 : HFP (strip (collapse_newlines t)) :=
    hfp_rstrip (hfp_lstrip (hfp_collapse h1))
  have h3 : hasRefHead (firstPageRaw (strip (collapse_newlines t))) = true :=
    hasRefHead_fp_of_hfp h2
  show truncate_by_reference_heading (strip (collapse_newlines t)) = []
  exact truncate_of_hasRefHead_fp _ h3

/-- Witness for C10 at the concrete text `"references\nfoo"`. -/
theorem claim10_reference_heading_empties_witness :
    ("references\nfoo".data : Str) ≠ []
    ∧ hasRefHead (firstPageRaw "references\nfoo".data) = true
    ∧ clean_text "references\nfoo".data none true = [] :=
  ⟨by decide, by decide,
   claim10_reference_heading_empties "references\nfoo".data (by decide) (by decide)⟩

end Engine
